import Mathlib

/-!
# Verification of the `config` runtime configuration registry

A shallow embedding, in Lean 4, of the Go package `config`: the typed
`Setting` value abstraction (`setting.go`), the hierarchical `Set`
registry (`set.go`), and the notification machinery (`notify.go`).

Modelling conventions:
* Go machine integers are modelled as `Int`/`Nat` with explicit range
  checks (the parsers carry the same cutoff/overflow checks as
  `strconv`); the platform word size `strconv.IntSize` is modelled as 64.
* Stateful code is modelled by explicit state passing: `Setting.Set`
  becomes a function returning the updated setting, the error outcome
  and the list of notification targets fired, in dispatch order.
* Write-through pointer values (`*bool`, `*int`, ...) carry a `ptr` tag;
  the externally owned cell is modelled by the payload itself, since the
  cell and the setting's view of it are observably identical through the
  `Setting` interface.
* `strconv.ParseFloat`/`FormatFloat` are external standard-library
  collaborators whose IEEE-754 rounding is not reproduced here; floats
  are modelled in exact decimal arithmetic (mantissa × 10^exponent)
  together with the special values ±Inf and NaN and their Go comparison
  semantics (`NaN == NaN` is false).  Hexadecimal float spellings,
  digit-separator underscores in floats and the overflow-to-range-error
  behaviour are omitted from the float grammar.
* `time.ParseDuration` / `time.Duration.String` are modelled faithfully
  after the Go standard library sources, except that the fractional
  contribution `uint64(float64(f) * (float64(unit) / scale))` is
  computed in exact integer arithmetic `f * unit / scale` (the two agree
  on every string `Duration.String` produces).
-/

namespace Config

/-! ## Characters and decimal digits -/

/-- The character for a single decimal digit. -/
def digitChar (d : Nat) : Char := Char.ofNat (48 + d)

/-- Numeric value of a decimal digit character. -/
def digitToNat (c : Char) : Nat := c.toNat - 48

/-- Go's `'0' <= c && c <= '9'` byte test. -/
def isDigitCh (c : Char) : Bool := decide ('0' ≤ c) && decide (c ≤ '9')

/-- Decimal digit characters of `n`, most significant first, built with
structural fuel so that the kernel can evaluate it.  `natCharsAux fuel n acc`
prepends the digits of `n` (when `fuel` is at least the digit count). -/
def natCharsAux : Nat → Nat → List Char → List Char
  | 0, _, acc => acc
  | fuel + 1, n, acc =>
      if n = 0 then acc else natCharsAux fuel (n / 10) (digitChar (n % 10) :: acc)

/-- Decimal representation of a natural number, as characters (Go `strconv.FormatUint(n, 10)`). -/
def natChars (n : Nat) : List Char :=
  if n = 0 then ['0'] else natCharsAux (n + 1) n []

/-- Go `strconv.FormatUint(n, 10)` / `fmtInt`. -/
def natToString (n : Nat) : String := String.mk (natChars n)

/-- Go `strconv.FormatInt(n, 10)` / `strconv.Itoa`. -/
def intToString : Int → String
  | .ofNat n => natToString n
  | .negSucc n => String.mk ('-' :: natChars (n + 1))

/-- Most-significant-first decimal accumulation, the common core of the
Go parsing loops. -/
def decValAcc (acc : Nat) (cs : List Char) : Nat :=
  cs.foldl (fun a c => a * 10 + digitToNat c) acc

/-! ## ASCII lowercasing (`strings.ToLower`, restricted to ASCII as used for
registry path keys) -/
def lowerChar (c : Char) : Char :=
  if 'A' ≤ c ∧ c ≤ 'Z' then Char.ofNat (c.toNat + 32) else c

def lowerStr (s : String) : String := String.mk (s.data.map lowerChar)

/-- Go `strings.HasPrefix(s, p)`. -/
def goHasPrefix (s p : String) : Bool := List.isPrefixOf p.data s.data

/-! ## The `strconv` collaborators

Structured model of the errors a `strconv` parser reports: the function
name, the offending text, and whether the failure was a range (overflow)
failure or a syntax failure.  `msg` renders the Go error text (Go quotes
the offending string with escapes; the model quotes verbatim). -/
structure ParseErr where
  fn : String
  num : String
  isRange : Bool
deriving DecidableEq, Repr

def goQuote (s : String) : String := "\"" ++ s ++ "\""

def ParseErr.msg (e : ParseErr) : String :=
  "strconv." ++ e.fn ++ ": parsing " ++ goQuote e.num ++ ": " ++
    (if e.isRange then "value out of range" else "invalid syntax")

/-- Go `strconv.ParseBool`: exactly these twelve spellings are accepted. -/
def parseBool (s : String) : Except ParseErr Bool :=
  if s = "1" ∨ s = "t" ∨ s = "T" ∨ s = "TRUE" ∨ s = "true" ∨ s = "True" then .ok true
  else if s = "0" ∨ s = "f" ∨ s = "F" ∨ s = "FALSE" ∨ s = "false" ∨ s = "False" then .ok false
  else .error ⟨"ParseBool", s, false⟩

/-- Go `strconv.FormatBool`. -/
def formatBool (b : Bool) : String := if b then "true" else "false"

/-- Go's byte-level `lower` (`c | ('x'-'X')`). -/
def goLower (c : Char) : Char := Char.ofNat (c.toNat ||| 32)

def maxUint64 : Nat := 2 ^ 64 - 1

/-- `strconv`'s digit-accumulation cutoff for a base: past it, `n *= base`
would overflow `uint64`. -/
def uintCutoff (base : Nat) : Nat := maxUint64 / base + 1

/-- Is `c` an ASCII letter digit (`a'..'z'` after `lower`)?  Returns the Go
digit value when it is. -/
def letterDigit (c : Char) : Option Nat :=
  if decide ('a' ≤ goLower c) && decide (goLower c ≤ 'z') then
    some ((goLower c).toNat - 97 + 10)
  else none

/-- The digit loop of Go `strconv.ParseUint` (with `base0 = true`, as this
repository always parses with base 0): underscores are skipped here and
validated afterwards by `underscoreOK`. -/
def parseUintLoop (base maxVal : Nat) (s0 : String) : Nat → List Char → Except ParseErr Nat
  | n, [] => .ok n
  | n, c :: cs =>
    if c = '_' then parseUintLoop base maxVal s0 n cs
    else
      match (if isDigitCh c then some (digitToNat c) else letterDigit c) with
      | none => .error ⟨"ParseUint", s0, false⟩
      | some d =>
        if d ≥ base then .error ⟨"ParseUint", s0, false⟩
        else if n ≥ uintCutoff base then .error ⟨"ParseUint", s0, true⟩
        else
          let n1 := n * base + d
          if n1 > maxUint64 ∨ n1 > maxVal then .error ⟨"ParseUint", s0, true⟩
          else parseUintLoop base maxVal s0 n1 cs

/-- State loop of Go `strconv.underscoreOK`: `saw` is `'^'` at start,
`'0'` after a digit (or base prefix), `'_'` after an underscore, `'!'`
otherwise. -/
def underscoreOKLoop (hex : Bool) : Char → List Char → Bool
  | saw, [] => saw ≠ '_'
  | saw, c :: cs =>
    if isDigitCh c || (hex && decide ('a' ≤ goLower c) && decide (goLower c ≤ 'f')) then
      underscoreOKLoop hex '0' cs
    else if c = '_' then
      if saw ≠ '0' then false else underscoreOKLoop hex '_' cs
    else if saw = '_' then false
    else underscoreOKLoop hex '!' cs

/-- Go `strconv.underscoreOK`: underscores may appear only between
successive digits or right after a base prefix. -/
def underscoreOK (cs : List Char) : Bool :=
  let cs1 := match cs with
    | c :: rest => if c = '-' ∨ c = '+' then rest else cs
    | [] => cs
  match cs1 with
  | '0' :: c1 :: rest =>
      if goLower c1 = 'b' ∨ goLower c1 = 'o' ∨ goLower c1 = 'x' then
        underscoreOKLoop (goLower c1 = 'x') '0' rest
      else underscoreOKLoop false '^' cs1
  | _ => underscoreOKLoop false '^' cs1

/-- The base-0 prefix detection of Go `strconv.ParseUint`: `0b`/`0o`/`0x`
prefixes, a bare leading `0` meaning octal, else decimal. -/
def baseAndDigits (c0 : Char) (rest : List Char) : Nat × List Char :=
  if c0 = '0' then
    match rest with
    | c1 :: rest2 =>
      if rest2 ≠ [] ∧ goLower c1 = 'b' then (2, rest2)
      else if rest2 ≠ [] ∧ goLower c1 = 'o' then (8, rest2)
      else if rest2 ≠ [] ∧ goLower c1 = 'x' then (16, rest2)
      else (8, c1 :: rest2)
    | [] => (8, [])
  else (10, c0 :: rest)

/-- Go `strconv.ParseUint(s, 0, bitSize)`: base-0 prefix detection, digit
loop, underscore validation. -/
def parseUintGo (bitSize : Nat) (s : String) : Except ParseErr Nat :=
  match s.data with
  | [] => .error ⟨"ParseUint", s, false⟩
  | c0 :: rest =>
    let bd := baseAndDigits c0 rest
    match parseUintLoop bd.1 (2 ^ bitSize - 1) s 0 bd.2 with
    | .error e => .error e
    | .ok n =>
        if bd.2.contains '_' ∧ ¬ underscoreOK s.data then .error ⟨"ParseUint", s, false⟩
        else .ok n

/-- Go `strconv.ParseInt(s, 0, bitSize)`: sign handling, `ParseUint` on the
rest, signed cutoff checks.  A range failure inside `ParseUint` also ends
as a `ParseInt` range failure (the magnitude returned with the range error
always trips the signed cutoff). -/
def parseIntGo (bitSize : Nat) (s : String) : Except ParseErr Int :=
  match s.data with
  | [] => .error ⟨"ParseInt", s, false⟩
  | c0 :: rest =>
    let neg := c0 = '-'
    let body := if c0 = '+' ∨ c0 = '-' then String.mk rest else s
    let cutoff : Nat := 2 ^ (bitSize - 1)
    match parseUintGo bitSize body with
    | .error e =>
        if e.isRange then .error ⟨"ParseInt", s, true⟩
        else .error ⟨"ParseInt", s, false⟩
    | .ok un =>
        if ¬ neg ∧ un ≥ cutoff then .error ⟨"ParseInt", s, true⟩
        else if neg ∧ un > cutoff then .error ⟨"ParseInt", s, true⟩
        else .ok (if neg then -(un : Int) else (un : Int))

/-! ## Floating point model

`strconv.ParseFloat` / `FormatFloat` are modelled in exact decimal
arithmetic: a finite value is a mantissa times a power of ten, plus the
IEEE special values ±Inf and NaN with Go's comparison semantics
(`NaN == NaN` is false, `+Inf == +Inf` is true).  See the header note. -/
inductive FVal where
  | fin (m : Int) (e : Int)
  | inf (neg : Bool)
  | nan
deriving DecidableEq, Repr

/-- Value equality of two decimal-scaled numbers `m1·10^e1 = m2·10^e2`. -/
def decEqb (m1 e1 m2 e2 : Int) : Bool :=
  if e1 ≥ e2 then m1 * (10 : Int) ^ (e1 - e2).toNat == m2
  else m1 == m2 * (10 : Int) ^ (e2 - e1).toNat

/-- Go `==` on float values: NaN compares unequal to everything, including
itself. -/
def fEq : FVal → FVal → Bool
  | .fin m1 e1, .fin m2 e2 => decEqb m1 e1 m2 e2
  | .inf a, .inf b => a == b
  | _, _ => false

def mkSign (neg : Bool) (n : Nat) : Int := if neg then -(n : Int) else n

/-- Strip one optional leading `+`/`-`: (isNegative, rest). -/
def stripSign : List Char → Bool × List Char
  | [] => (false, [])
  | c :: r => if c = '+' then (false, r) else if c = '-' then (true, r) else (false, c :: r)

/-- Strip one optional leading exponent sign: (signFactor, rest). -/
def stripExpSign : List Char → Int × List Char
  | [] => (1, [])
  | c :: r => if c = '+' then (1, r) else if c = '-' then (-1, r) else (1, c :: r)

/-- The optional `.digits` fraction of the float grammar: (fraction
digits when a dot was present, rest). -/
def fracPart : List Char → Option (List Char) × List Char
  | [] => (none, [])
  | c :: r =>
    if c = '.' then (some (List.span isDigitCh r).1, (List.span isDigitCh r).2)
    else (none, c :: r)

/-- Model of Go `strconv.ParseFloat` (both bit sizes): optional sign, the
special spellings `inf`/`infinity`/`nan` case-insensitively, else decimal
digits with optional fraction and optional decimal exponent. -/
def parseFloatGo (s : String) : Except ParseErr FVal :=
  let err : Except ParseErr FVal := .error ⟨"ParseFloat", s, false⟩
  let sign := stripSign s.data
  let neg := sign.1
  let cs1 := sign.2
  let low := cs1.map goLower
  if low = ['i', 'n', 'f'] ∨ low = ['i', 'n', 'f', 'i', 'n', 'i', 't', 'y'] then .ok (.inf neg)
  else if low = ['n', 'a', 'n'] then .ok .nan
  else
    let ipr := List.span isDigitCh cs1
    let fpr := fracPart ipr.2
    if ipr.1 = [] ∧ (fpr.1 = none ∨ fpr.1 = some []) then err
    else
      let mantNat : Nat := decValAcc 0 (ipr.1 ++ (fpr.1.getD []))
      let fracLen : Nat := (fpr.1.getD []).length
      match fpr.2 with
      | [] => .ok (.fin (mkSign neg mantNat) (-(fracLen : Int)))
      | e :: r3 =>
        if e = 'e' ∨ e = 'E' then
          let es := stripExpSign r3
          let eds := List.span isDigitCh es.2
          if eds.1 = [] ∨ eds.2 ≠ [] then err
          else .ok (.fin (mkSign neg mantNat) (es.1 * (decValAcc 0 eds.1 : Int) - fracLen))
        else err

/-- Model of Go `strconv.FormatFloat(v, 'g', -1, bits)`: canonical exact
rendering `m` or `m e k` of the decimal-scaled value; `±Inf`/`NaN` as Go
prints them. -/
def formatFloatGo : FVal → String
  | .fin m e => if e = 0 then intToString m else intToString m ++ "e" ++ intToString e
  | .inf neg => if neg then "-Inf" else "+Inf"
  | .nan => "NaN"

/-! ## The `time.Duration` collaborator

A duration is its `int64` nanosecond count.  `parseDuration` follows
`time.ParseDuration`, `formatDuration` follows `time.Duration.String`
(both from the Go standard library sources, with magnitudes accumulated
as unsigned 64-bit numbers bounded by `2^63`). -/
def twoPow63 : Nat := 2 ^ 63

def invalidDurMsg (orig : String) : String := "time: invalid duration " ++ goQuote orig

def missingUnitMsg (orig : String) : String := "time: missing unit in duration " ++ goQuote orig

def unknownUnitMsg (u orig : String) : String :=
  "time: unknown unit " ++ goQuote u ++ " in duration " ++ goQuote orig

/-- `time.unitMap`: nanoseconds per unit name (`µs` is U+00B5, `μs` is U+03BC). -/
def unitNanos : String → Option Nat
  | "ns" => some 1
  | "us" => some 1000
  | "µs" => some 1000
  | "μs" => some 1000
  | "ms" => some 1000000
  | "s" => some 1000000000
  | "m" => some 60000000000
  | "h" => some 3600000000000
  | _ => none

/-- `time.leadingInt`: consume leading decimal digits into an unsigned
value, failing past `2^63`. -/
def leadingInt : List Char → Nat → Except Unit (Nat × List Char)
  | [], x => .ok (x, [])
  | c :: cs, x =>
    if ¬ isDigitCh c then .ok (x, c :: cs)
    else if x > twoPow63 / 10 then .error ()
    else
      let x1 := x * 10 + digitToNat c
      if x1 > twoPow63 then .error ()
      else leadingInt cs x1

/-- `time.leadingFraction`: consume fraction digits; once the value would
overflow, keep consuming but stop accumulating (`scale` stays put). -/
def leadingFraction : List Char → Nat → Nat → Bool → Nat × Nat × List Char
  | [], x, scale, _ => (x, scale, [])
  | c :: cs, x, scale, overflow =>
    if ¬ isDigitCh c then (x, scale, c :: cs)
    else if overflow then leadingFraction cs x scale true
    else if x > (twoPow63 - 1) / 10 then leadingFraction cs x scale true
    else
      let y := x * 10 + digitToNat c
      if y > twoPow63 then leadingFraction cs x scale true
      else leadingFraction cs y (scale * 10) false

/-- One pass of `time.ParseDuration`'s component loop, with structural
fuel (each component consumes at least its unit character). -/
def parseDurationLoop : Nat → Nat → List Char → String → Except String Nat
  | _, d, [], _ => .ok d
  | 0, _, _ :: _, orig => .error (invalidDurMsg orig)
  | fuel + 1, d, c :: cs, orig =>
    if ¬ (c = '.' ∨ isDigitCh c) then .error (invalidDurMsg orig)
    else match leadingInt (c :: cs) 0 with
    | .error _ => .error (invalidDurMsg orig)
    | .ok (v, s1) =>
      let pre := s1.length ≠ (c :: cs).length
      let fr : Nat × Nat × List Char × Bool :=
        match s1 with
        | [] => (0, 1, [], false)
        | c1 :: r =>
          if c1 = '.' then
            let p := leadingFraction r 0 1 false
            (p.1, p.2.1, p.2.2, p.2.2.length ≠ r.length)
          else (0, 1, c1 :: r, false)
      let f := fr.1
      let scale := fr.2.1
      let s2 := fr.2.2.1
      let post := fr.2.2.2
      if ¬ pre ∧ ¬ post then .error (invalidDurMsg orig)
      else
        let sp := List.span (fun ch => ¬ (ch = '.' ∨ isDigitCh ch)) s2
        if sp.1 = [] then .error (missingUnitMsg orig)
        else match unitNanos (String.mk sp.1) with
        | none => .error (unknownUnitMsg (String.mk sp.1) orig)
        | some unit =>
          if v > twoPow63 / unit then .error (invalidDurMsg orig)
          else
            let v1 := v * unit
            let v2 := if f > 0 then v1 + f * unit / scale else v1
            if f > 0 ∧ v2 > twoPow63 then .error (invalidDurMsg orig)
            else
              let d1 := d + v2
              if d1 > twoPow63 then .error (invalidDurMsg orig)
              else parseDurationLoop fuel d1 sp.2 orig

/-- Model of Go `time.ParseDuration`. -/
def parseDuration (s : String) : Except String Int :=
  let sign := stripSign s.data
  let neg := sign.1
  let cs1 := sign.2
  if cs1 = ['0'] then .ok 0
  else if cs1 = [] then .error (invalidDurMsg s)
  else match parseDurationLoop (cs1.length + 1) 0 cs1 s with
    | .error e => .error e
    | .ok d =>
      if neg then .ok (-(d : Int))
      else if d > twoPow63 - 1 then .error (invalidDurMsg s)
      else .ok (d : Int)

/-- `time.fmtFrac`: the fraction digits of `v` over `10^prec`, trailing
zeros omitted, preceded by `'.'` when anything is printed; also returns
`v` with the fraction digits stripped. -/
def fmtFracAux : Nat → Nat → Bool → List Char → List Char × Nat
  | 0, v, pr, acc => ((if pr then '.' :: acc else acc), v)
  | p + 1, v, pr, acc =>
    let digit := v % 10
    let pr1 := pr || decide (digit ≠ 0)
    fmtFracAux p (v / 10) pr1 (if pr1 then digitChar digit :: acc else acc)

/-- The unit/digit body of `time.Duration.String` for a nonzero magnitude
`u` (nanoseconds): sub-second magnitudes use `ns`/`µs`/`ms` with the
matching fraction precision, others the `h`/`m`/`s` components with a
9-digit fraction. -/
def durBody (u : Nat) : List Char :=
  if u < 1000000000 then
    if u < 1000 then natChars u ++ ['n', 's']
    else if u < 1000000 then
      let p := fmtFracAux 3 u false []
      natChars p.2 ++ p.1 ++ ['µ', 's']
    else
      let p := fmtFracAux 6 u false []
      natChars p.2 ++ p.1 ++ ['m', 's']
  else
    let p := fmtFracAux 9 u false []
    let secs := p.2 % 60
    let u2 := p.2 / 60
    (if u2 > 0 then
      (if u2 / 60 > 0 then natChars (u2 / 60) ++ ['h'] else []) ++
        natChars (u2 % 60) ++ ['m']
     else []) ++ natChars secs ++ p.1 ++ ['s']

/-- Model of Go `time.Duration.String`. -/
def formatDuration (d : Int) : String :=
  let u := d.natAbs
  let neg : Bool := decide (d < 0)
  if u = 0 then "0s"
  else String.mk ((if neg then ['-'] else []) ++ durBody u)

/-! ## The `Setting` value model (`setting.go`)

A `Value` is either one of the builtin kinds of the `Setting.Set` type
switch — in plain or pointer (write-through) form — or a non-builtin
value that may carry the `Marshaler` / `Unmarshaler` / `Equality`
capability interfaces.  The platform-width `int`/`uint` (64 bits here)
are distinguished from `int64`/`uint64` because `%T` names them
differently. -/
/-- Integer width tags of the builtin kinds. -/
inductive IW where
  | iN   -- platform `int` / `uint` (`strconv.IntSize` = 64 in this model)
  | i8
  | i16
  | i32
  | i64
deriving DecidableEq, Repr

def IW.bits : IW → Nat
  | .iN => 64
  | .i8 => 8
  | .i16 => 16
  | .i32 => 32
  | .i64 => 64

def IW.signedName : IW → String
  | .iN => "int"
  | .i8 => "int8"
  | .i16 => "int16"
  | .i32 => "int32"
  | .i64 => "int64"

def IW.unsignedName : IW → String
  | .iN => "uint"
  | .i8 => "uint8"
  | .i16 => "uint16"
  | .i32 => "uint32"
  | .i64 => "uint64"

inductive FW where
  | f32
  | f64
deriving DecidableEq, Repr

def FW.goName : FW → String
  | .f32 => "float32"
  | .f64 => "float64"

/-- Payload of a builtin-kind value. -/
inductive BVal where
  | s (v : String)
  | b (v : Bool)
  | i (w : IW) (v : Int)
  | u (w : IW) (v : Nat)
  | f (w : FW) (v : FVal)
  | d (v : Int)   -- `time.Duration` (int64 nanoseconds)
deriving DecidableEq, Repr

/-- A non-builtin value: its `%T` name, an abstract internal state, the
`fmt.Sprintf("%v", ·)` rendering of that state, and the three optional
capability interfaces of `setting.go`. -/
structure Custom where
  typeName : String
  state : String
  reprF : String → String
  hasUnmarshal : Bool
  unmarshalF : String → String → Except String String
  hasMarshal : Bool
  marshalF : String → String
  hasEquality : Bool
  equalsF : String → String → Bool

inductive Val where
  | builtin (ptr : Bool) (v : BVal)
  | custom (c : Custom)

/-- `%T` of a stored value. -/
def valTypeName : Val → String
  | .builtin ptr bv =>
      (if ptr then "*" else "") ++
        (match bv with
         | .s _ => "string"
         | .b _ => "bool"
         | .i w _ => w.signedName
         | .u w _ => w.unsignedName
         | .f w _ => w.goName
         | .d _ => "time.Duration")
  | .custom c => c.typeName

/-- The Go error noun used in `Setting.Set`'s cast messages for each
builtin kind (`"boolean"` for `bool`, the type name otherwise). -/
def BVal.castName : BVal → String
  | .s _ => "string"
  | .b _ => "boolean"
  | .i w _ => w.signedName
  | .u w _ => w.unsignedName
  | .f w _ => w.goName
  | .d _ => "time.Duration"

/-- The parser `Setting.Set`/`Setting.Equals` invoke for a builtin kind,
producing the replacement payload.  Strings never fail. -/
def BVal.parse : BVal → String → Except String BVal
  | .s _, v => .ok (.s v)
  | .b _, v => (parseBool v).map BVal.b |>.mapError ParseErr.msg
  | .i w _, v => (parseIntGo w.bits v).map (BVal.i w) |>.mapError ParseErr.msg
  | .u w _, v => (parseUintGo w.bits v).map (BVal.u w) |>.mapError ParseErr.msg
  | .f w _, v => (parseFloatGo v).map (BVal.f w) |>.mapError ParseErr.msg
  | .d _, v => (parseDuration v).map BVal.d

/-- Go `==` between the stored payload and a freshly parsed payload of the
same kind (float NaN is unequal to itself). -/
def BVal.sameValue : BVal → BVal → Bool
  | .s x, .s y => x == y
  | .b x, .b y => x == y
  | .i _ x, .i _ y => x == y
  | .u _ x, .u _ y => x == y
  | .f _ x, .f _ y => fEq x y
  | .d x, .d y => x == y
  | _, _ => false

/-- The `Setting.String` rendering of a builtin payload (before masking). -/
def BVal.format : BVal → String
  | .s x => x
  | .b x => formatBool x
  | .i _ x => intToString x
  | .u _ x => natToString x
  | .f _ x => formatFloatGo x
  | .d x => formatDuration x

/-- Errors `Setting.Set` can return: a coercion failure naming the target
type and wrapping the parser diagnostic (`unable to cast value to T: ...`,
or `unable to marshal value to T: ...` on the `Unmarshaler` path), or the
`type T not supported` failure. -/
inductive SetErr where
  | cast (target : String) (wrapped : String)
  | unsupported (typeName : String)
deriving DecidableEq, Repr

/-- Notification targets registered on a setting: a user subscriber (by
id) or an owning `Set`'s `notifyChanged` subscription. -/
inductive NTarget where
  | user (id : Nat)
  | ownerSet (ref : Option String)   -- `none` = the root set, `some k` = node key
deriving DecidableEq, Repr

/-- The `Setting` struct.  `notifiers` is the subscriber collection in
dispatch order. -/
structure SettingSt where
  Mask : Bool
  Name : String
  Description : String
  DefaultValue : String
  Path : String
  Value : Val
  notifiers : List NTarget

/-- The type-switch of `Setting.Equals`, over the stored value: parse the
text by the stored kind and compare with Go `==`; non-builtin values use
the `Equality` capability when present, else compare against the `%v`
rendering. -/
def valEquals (val : Val) (v : String) : Bool :=
  match val with
  | .builtin _ bv =>
      match bv.parse v with
      | .ok bv' => bv.sameValue bv'
      | .error _ => false
  | .custom c =>
      if c.hasEquality then c.equalsF c.state v else c.reprF c.state == v

/-- `Setting.Equals`. -/
def settingEquals (st : SettingSt) (v : String) : Bool := valEquals st.Value v

/-- Unmasked rendering of a value (the non-`Mask` arm of `Setting.String`). -/
def valFormat : Val → String
  | .builtin _ bv => bv.format
  | .custom c => if c.hasMarshal then c.marshalF c.state else c.reprF c.state

/-- `Setting.String`: the fixed redaction marker when `Mask` is set, else
the value rendering. -/
def settingString (st : SettingSt) : String :=
  if st.Mask then "*****" else valFormat st.Value

/-- `Setting.IsDefault`. -/
def settingIsDefault (st : SettingSt) : Bool := settingEquals st st.DefaultValue

/-- The type-switch of `Setting.Set`, over the stored value: coerce the
text by the stored kind, producing the replacement value (for pointer
kinds, the value written through the pointer); a builtin parse failure
becomes the `unable to cast value to T` error wrapping the parser
diagnostic, an `Unmarshaler` failure the `unable to marshal value to T`
error, and a value that is neither builtin nor an `Unmarshaler` the
`type T not supported` error. -/
def valParse (val : Val) (v : String) : Except SetErr Val :=
  match val with
  | .builtin p bv =>
    match bv.parse v with
    | .error msg => .error (.cast bv.castName msg)
    | .ok bv' => .ok (.builtin p bv')
  | .custom c =>
    if c.hasUnmarshal then
      match c.unmarshalF c.state v with
      | .error msg => .error (.cast c.typeName msg)
      | .ok state' => .ok (.custom { c with state := state' })
    else .error (.unsupported c.typeName)

/-- `Setting.Set`: records `same := Equals(v)` first, runs the coercion
switch on the stored value, and on success fires every registered
notification target unless `same`.  Returns the updated setting, the
call's error outcome, and the targets fired in dispatch order. -/
def settingSet (st : SettingSt) (v : String) : SettingSt × Except SetErr Unit × List NTarget :=
  let same := settingEquals st v
  match valParse st.Value v with
  | .error e => (st, .error e, [])
  | .ok val' =>
    let st' := { st with Value := val' }
    if same then (st', .ok (), []) else (st', .ok (), st'.notifiers)

/-- `Setting.Notify`: a `none` subscriber yields a no-op handle and
registers nothing; otherwise the subscriber joins the collection. -/
def settingNotify (st : SettingSt) (n : Option Nat) : SettingSt :=
  match n with
  | none => st
  | some id => { st with notifiers := st.notifiers ++ [.user id] }

/-- `Setting.Type`: `%T` with the pointer star trimmed. -/
def settingType (st : SettingSt) : String :=
  match st.Value with
  | .builtin _ bv => valTypeName (Val.builtin false bv)
  | .custom c => c.typeName

/-- `Setting.IsBoolFlag`: true exactly for the `bool`/`*bool` kinds. -/
def settingIsBoolFlag (st : SettingSt) : Bool :=
  match st.Value with
  | .builtin _ (.b _) => true
  | _ => false

/-! ## The `Set` registry model (`set.go`)

A set handle is `none` for the root or `some key` for a child node, where
`key` is the node's lowercased full path — the key under which `Subset`
stores it in the root's children map.  The root holds the flat settings
map (association list in insertion order, standing in for the `sync.Map`)
and each set holds its own subscriber list. -/
structure SetNode where
  name : String
  path : String
  parent : Option String   -- handle of the set `Subset` was called on
  subs : List Nat          -- this set's own subscribers (user ids)

structure Registry where
  nodes : List (String × SetNode)       -- root's children map, keyed by lowercased path
  settings : List (String × SettingSt)  -- root's flat settings map, keyed by lowercased path
  rootSubs : List Nat                   -- the root set's own subscribers

def emptyRegistry : Registry := ⟨[], [], []⟩

def lookupA {α : Type} (l : List (String × α)) (k : String) : Option α :=
  (l.find? (·.1 == k)).map (·.2)

def updateA {α : Type} (l : List (String × α)) (k : String) (f : α → α) : List (String × α) :=
  l.map (fun e => if e.1 == k then (e.1, f e.2) else e)

/-- The `path` field of the set a handle denotes (`""` for the root). -/
def refPath (r : Registry) : Option String → String
  | none => ""
  | some k => ((lookupA r.nodes k).map (·.path)).getD ""

/-- The full path of a child named `name` of the set `h`: `path + "." +
name`, or just `name` at the root (`Set.Subset` / `Set.Setting` both
compute this). -/
def childPath (r : Registry) (h : Option String) (name : String) : String :=
  if refPath r h = "" then name else refPath r h ++ "." ++ name

/-- `Set.Subset`: get-or-create of the child keyed by lowercased full
subset path in the root's children map. -/
def subsetOp (r : Registry) (h : Option String) (name : String) : Registry × Option String :=
  let subsetPath := childPath r h name
  let key := lowerStr subsetPath
  match lookupA r.nodes key with
  | some _ => (r, some key)
  | none => ({ r with nodes := r.nodes ++ [(key, ⟨name, subsetPath, h, []⟩)] }, some key)

/-- `Set.Notify` (a `nil` notifier registers nothing). -/
def setNotifyOp (r : Registry) (h : Option String) (n : Option Nat) : Registry :=
  match n with
  | none => r
  | some id =>
    match h with
    | none => { r with rootSubs := r.rootSubs ++ [id] }
    | some k => { r with nodes := updateA r.nodes k (fun nd => { nd with subs := nd.subs ++ [id] }) }

/-- `Set.notifyChanged`: this set's own subscribers first, then the parent
chain up to the root.  The fuel argument bounds the parent chain; any
chain reachable through the API is shorter than the node count. -/
def notifyChangedFuel (r : Registry) : Nat → Option String → List Nat
  | _, none => r.rootSubs
  | 0, some _ => []
  | fuel + 1, some k =>
    match lookupA r.nodes k with
    | none => []
    | some nd => nd.subs ++ notifyChangedFuel r fuel nd.parent

def notifyChanged (r : Registry) (h : Option String) : List Nat :=
  notifyChangedFuel r (r.nodes.length + 1) h

/-- `Set.Setting`: fatal precondition failures become `.error`; otherwise
the setting is created with its default snapshot taken *before* any mask
is applied, registered in the root's flat map (duplicate lowercased path
is fatal), subscribed to by the owning set, and the set's change
notification fires once for the creation.  Returns the new registry, the
setting's key, and the creation notification's subscriber invocations. -/
def settingOp (r : Registry) (h : Option String) (name : String) (value : Option Val)
    (desc : String) : Except String (Registry × String × List Nat) :=
  if name = "" then .error "name can not be empty"
  else match value with
  | none => .error "value can not be nil"
  | some v =>
    let settingPath := childPath r h name
    let st0 : SettingSt := ⟨false, name, desc, "", settingPath, v, []⟩
    let st1 := { st0 with DefaultValue := settingString st0 }
    let key := lowerStr settingPath
    match lookupA r.settings key with
    | some _ => .error ("setting " ++ goQuote settingPath ++ " already exists")
    | none =>
      let st2 := { st1 with notifiers := [.ownerSet h] }
      let r1 := { r with settings := r.settings ++ [(key, st2)] }
      .ok (r1, key, notifyChanged r1 h)

/-- Dispatch the notification targets fired by a `Setting.Set`: a user
subscriber is invoked directly, an owning set's subscription runs
`notifyChanged` up the parent chain. -/
def dispatchTargets (r : Registry) (ts : List NTarget) : List Nat :=
  (ts.map fun t => match t with
    | .user id => [id]
    | .ownerSet h => notifyChanged r h).flatten

/-- `Setting.Set` invoked on a registered setting (the delegation target
of `Set.Set`/`Update`): returns the updated registry, whether the setting
was found together with the coercion outcome, and the subscriber
invocations in dispatch order. -/
def regSettingSet (r : Registry) (key : String) (v : String) :
    Registry × (Bool × Except SetErr Unit) × List Nat :=
  match lookupA r.settings key with
  | none => (r, (false, .ok ()), [])
  | some st =>
    let res := settingSet st v
    let r1 := { r with settings := updateA r.settings key (fun _ => res.1) }
    (r1, (true, res.2.1), dispatchTargets r1 res.2.2)

/-- The visiting core of `Set.Range`: entries whose key does not extend
this set's `path` are skipped; a `false` callback stops the iteration. -/
def rangeVisit (p : String) (fn : String → SettingSt → Bool) :
    List (String × SettingSt) → List (String × SettingSt)
  | [] => []
  | e :: rest =>
    if ¬ (goHasPrefix e.1 p) then rangeVisit p fn rest
    else if fn e.1 e.2 then e :: rangeVisit p fn rest
    else [e]

/-- `Set.Range`: the list of entries on which the callback is invoked, in
map order. -/
def rangeOp (r : Registry) (h : Option String) (fn : String → SettingSt → Bool) :
    List (String × SettingSt) :=
  rangeVisit (refPath r h) fn r.settings

/-- The header row `Set.Dump` writes. -/
def dumpHeader : List String := ["Path", "Type", "Value", "Description"]

/-- `Set.Dump` as the list of rows written (header first): per visited
setting, `Path`, `%T` of the value, the `%q`-quoted `String()` rendering
(which honors `Mask`), and the description. -/
def dumpOp (r : Registry) (h : Option String) : List (List String) :=
  dumpHeader ::
    (rangeOp r h (fun _ _ => true)).map
      (fun e => [e.2.Path, valTypeName e.2.Value, goQuote (settingString e.2), e.2.Description])

/-- The leaf-field slice of `Set.Bind`: create the setting (passing a
write-through pointer to the field), then assign the `mask` tag to the
created setting. -/
def bindFieldOp (r : Registry) (h : Option String) (name : String) (v : Val)
    (desc : String) (mask : Bool) : Except String (Registry × String × List Nat) :=
  match settingOp r h name (some v) desc with
  | .error e => .error e
  | .ok res =>
    .ok ({ res.1 with settings := updateA res.1.settings res.2.1 (fun st => { st with Mask := mask }) },
      res.2.1, res.2.2)

instance {ε α : Type} [DecidableEq ε] [DecidableEq α] : DecidableEq (Except ε α)
  | .ok x, .ok y =>
      if h : x = y then .isTrue (by rw [h])
      else .isFalse (fun hh => h (Except.ok.inj hh))
  | .ok _, .error _ => .isFalse (fun hh => Except.noConfusion hh)
  | .error _, .ok _ => .isFalse (fun hh => Except.noConfusion hh)
  | .error e, .error f =>
      if h : e = f then .isTrue (by rw [h])
      else .isFalse (fun hh => h (Except.error.inj hh))

/-- A value of a type that is neither builtin nor an `Unmarshaler`, whose
`%v` rendering is `"xy"`. -/
def c1Unsupported : Custom :=
  { typeName := "struct", state := "", reprF := fun _ => "xy",
    hasUnmarshal := false, unmarshalF := fun _ _ => .ok "",
    hasMarshal := false, marshalF := fun _ => "",
    hasEquality := false, equalsF := fun _ _ => false }

def c1CexSetting : SettingSt :=
  ⟨false, "cex", "", "", "cex", .custom c1Unsupported, [.user 7]⟩

def c2Setting : SettingSt := ⟨false, "w", "", "", "w", .builtin false (.b false), [.user 1]⟩

def c6Setting : SettingSt := ⟨true, "pw", "", "", "pw", .builtin false (.s "hunter2"), []⟩

def c9Setting : SettingSt := ⟨false, "s", "", "", "s", .builtin true (.s "old"), []⟩

def c5Reg : Registry :=
  match settingOp emptyRegistry none "Dup" (some (.builtin false (.b false))) "" with
  | .ok res => res.1
  | .error _ => emptyRegistry

def c10Result : Except String (Registry × String × List Nat) :=
  bindFieldOp emptyRegistry none "Password" (.builtin true (.s "hunter2"))
    "Super secret password" true

/-! ## Claim C7: `Range` and the case of uppercase set paths -/
def c7Reg : Registry :=
  match settingOp (subsetOp emptyRegistry none "A").1 (subsetOp emptyRegistry none "A").2
      "x" (some (.builtin false (.b false))) "" with
  | .ok res => res.1
  | .error _ => emptyRegistry

/-- The entries `Range` visits, per the amended claim: the
prefix-matching entries in map order, cut at the first `false` callback
(which is still visited). -/
def stopAtFalse (fn : String → SettingSt → Bool) :
    List (String × SettingSt) → List (String × SettingSt)
  | [] => []
  | e :: rest => if fn e.1 e.2 then e :: stopAtFalse fn rest else [e]

/-! ## Claim C4: strictly upward notification propagation -/
/-- Build a chain of nested subsets from `h`, subscribing subscriber `i`
to the first created subset, `i+1` to the next, and so on; returns the
final registry and the handle of the deepest subset. -/
def buildChainSub : Registry → Option String → Nat → List String → Registry × Option String
  | r, h, _, [] => (r, h)
  | r, h, i, n :: ns =>
      let s := subsetOp r h n
      buildChainSub (setNotifyOp s.1 s.2 (some i)) s.2 (i + 1) ns

/-- The nodes `buildChainSub` creates (key, node with its one subscriber)
together with the final handle, computed from the starting path. -/
def chainSpec : String → Option String → Nat → List String →
    List (String × SetNode) × Option String
  | _, h, _, [] => ([], h)
  | p, h, i, n :: ns =>
      let p' := if p = "" then n else p ++ "." ++ n
      let rest := chainSpec p' (some (lowerStr p')) (i + 1) ns
      ((lowerStr p', ⟨n, p', h, [i]⟩) :: rest.1, rest.2)

/-- The C4 scenario: root subscriber `0`; a chain of nested subsets with
subscribers `1, …, chain.length`; a setting created in the deepest
subset; an unrelated subset attached at `hAtt` with subscriber
`chain.length + 1`.  Returns the final registry, the setting's key, and
the unrelated subset's handle. -/
def c4Scenario (chain : List String) (sname : String) (v : Val) (hAtt : Option String)
    (sibName : String) : Registry × String × Option String :=
  let base := buildChainSub (setNotifyOp emptyRegistry none (some 0)) none 1 chain
  match settingOp base.1 base.2 sname (some v) "" with
  | .error _ => (emptyRegistry, "", none)
  | .ok res =>
      let sp := subsetOp res.1 hAtt sibName
      (setNotifyOp sp.1 sp.2 (some (chain.length + 1)), res.2.1, sp.2)

/-! ## Claim C3: round-trip lemmas for the builtin parsers -/
/-- Is the stored value a floating-point NaN? -/
def valIsNaN : Val → Bool
  | .builtin _ (.f _ .nan) => true
  | _ => false

/-- The `p` least-significant decimal digits of `n`, most significant
first, zero-padded to exactly `p` characters. -/
def padDigits : Nat → Nat → List Char
  | 0, _ => []
  | p + 1, n => padDigits p (n / 10) ++ [digitChar (n % 10)]

/-- Is the payload a float NaN? -/
def BVal.isNaN : BVal → Bool
  | .f _ .nan => true
  | _ => false

/-- A masked string setting (claim C3, counterexample part one). -/
def c3Masked : SettingSt :=
  ⟨true, "Password", "", "x", "password", .builtin false (.s "x"), []⟩

/-- A float64 setting (claim C3, counterexample part two: NaN). -/
def c3Float : SettingSt :=
  ⟨false, "Threshold", "", "0", "threshold", .builtin false (.f .f64 (.fin 0 0)), []⟩

/-- An int8 setting for the C3 witness. -/
def c3W : SettingSt :=
  ⟨false, "Limit", "", "0", "limit", .builtin false (.i .i8 0), []⟩

/-! ## Claim C8: the columns of `Dump` -/
def c8Reg : Registry :=
  match bindFieldOp (subsetOp emptyRegistry none "MyApplication").1
      (subsetOp emptyRegistry none "MyApplication").2 "Password"
      (.builtin true (.s "secret")) "Super secret password" true with
  | .ok res => res.1
  | .error _ => emptyRegistry

theorem digitToNat_digitChar {d : Nat} (h : d < 10) : digitToNat (digitChar d) = d := by
  interval_cases d <;> rfl

theorem isDigitCh_digitChar {d : Nat} (h : d < 10) : isDigitCh (digitChar d) = true := by
  interval_cases d <;> rfl

theorem digitChar_ne_dot {d : Nat} (h : d < 10) : digitChar d ≠ '.' := by
  interval_cases d <;> decide

theorem digitChar_ne_underscore {d : Nat} (h : d < 10) : digitChar d ≠ '_' := by
  interval_cases d <;> decide

theorem natCharsAux_eq (acc : List Char) :
    ∀ fuel n, n ≤ fuel →
      natCharsAux fuel n acc = ((Nat.digits 10 n).map digitChar).reverse ++ acc := by
  intro fuel
  induction fuel generalizing acc with
  | zero =>
      intro n hn
      interval_cases n
      simp [natCharsAux]
  | succ fuel ih =>
      intro n hn
      by_cases h0 : n = 0
      · subst h0; simp [natCharsAux]
      · have hpos : 0 < n := Nat.pos_of_ne_zero h0
        have hdiv : n / 10 ≤ fuel := by
          have : n / 10 < n := Nat.div_lt_self hpos (by norm_num)
          omega
        rw [natCharsAux, if_neg h0, ih _ _ hdiv,
          Nat.digits_def' (by norm_num : (1:Nat) < 10) hpos]
        simp

theorem natChars_eq (n : Nat) :
    natChars n = if n = 0 then ['0'] else ((Nat.digits 10 n).map digitChar).reverse := by
  by_cases h : n = 0
  · simp [natChars, h]
  · simp [natChars, h, natCharsAux_eq [] (n + 1) n (Nat.le_succ n)]

theorem natChars_ne_nil (n : Nat) : natChars n ≠ [] := by
  rw [natChars_eq]
  by_cases h : n = 0
  · simp [h]
  · simp only [h, if_false, ne_eq]
    intro hcon
    have := (Nat.digits_ne_nil_iff_ne_zero (b := 10) (n := n)).mpr h
    simp at hcon
    exact this hcon

theorem natChars_all_digits (n : Nat) : ∀ c ∈ natChars n, isDigitCh c = true := by
  rw [natChars_eq]
  by_cases h : n = 0
  · simp [h]; decide
  · simp only [h, if_false]
    intro c hc
    simp only [List.mem_reverse, List.mem_map] at hc
    obtain ⟨d, hd, rfl⟩ := hc
    exact isDigitCh_digitChar (Nat.digits_lt_base (by norm_num) hd)

/-- The leading character of the decimal representation of a positive number
is a nonzero digit. -/
theorem natChars_head_ne_zero {n : Nat} (h : 0 < n) :
    ∀ c cs, natChars n = c :: cs → c ≠ '0' := by
  rw [natChars_eq, if_neg (Nat.pos_iff_ne_zero.mp h)]
  intro c cs hc
  have hnil := (Nat.digits_ne_nil_iff_ne_zero (b := 10) (n := n)).mpr (Nat.pos_iff_ne_zero.mp h)
  have hlast := Nat.getLast_digit_ne_zero 10 (m := n) (Nat.pos_iff_ne_zero.mp h)
  -- head of the reverse of the map is the image of the last digit
  have hhead : ((Nat.digits 10 n).map digitChar).reverse.head? = some c := by
    rw [hc]; rfl
  rw [List.head?_reverse, List.getLast?_map,
    List.getLast?_eq_getLast_of_ne_nil hnil] at hhead
  have hc' : digitChar ((Nat.digits 10 n).getLast hnil) = c := by
    simpa using hhead
  subst hc'
  intro hcon
  apply hlast
  have hlt : (Nat.digits 10 n).getLast hnil < 10 :=
    Nat.digits_lt_base (by norm_num) (List.getLast_mem hnil)
  have := congrArg digitToNat hcon
  rw [digitToNat_digitChar hlt] at this
  simpa using this

theorem decValAcc_nil (acc : Nat) : decValAcc acc [] = acc := rfl

theorem decValAcc_cons (acc : Nat) (c : Char) (cs : List Char) :
    decValAcc acc (c :: cs) = decValAcc (acc * 10 + digitToNat c) cs := rfl

theorem decValAcc_append (acc : Nat) (xs ys : List Char) :
    decValAcc acc (xs ++ ys) = decValAcc (decValAcc acc xs) ys := by
  simp [decValAcc, List.foldl_append]

/-- Folding the printed digits of `n` recovers `n`. -/
theorem decValAcc_natChars (acc n : Nat) :
    decValAcc acc (natChars n) = acc * 10 ^ (natChars n).length + n := by
  have key : ∀ ds : List Nat, (∀ d ∈ ds, d < 10) → ∀ a : Nat,
      decValAcc a ((ds.map digitChar).reverse) = a * 10 ^ ds.length + Nat.ofDigits 10 ds := by
    intro ds
    induction ds with
    | nil => intro _ a; simp [decValAcc, Nat.ofDigits]
    | cons d tl ih =>
        intro hlt a
        have hd : d < 10 := hlt d (by simp)
        have htl : ∀ x ∈ tl, x < 10 := fun x hx => hlt x (by simp [hx])
        simp only [List.map_cons, List.reverse_cons]
        rw [decValAcc_append, ih htl]
        simp only [decValAcc_cons, decValAcc_nil, digitToNat_digitChar hd,
          Nat.ofDigits_cons, List.length_cons]
        ring
  rw [natChars_eq]
  by_cases h : n = 0
  · simp [h, decValAcc, digitToNat]
  · rw [if_neg h]
    have := key (Nat.digits 10 n) (fun d hd => Nat.digits_lt_base (by norm_num) hd) acc
    rw [this, Nat.ofDigits_digits]
    simp

/-! ## Claim C1: notification discipline of `Setting.Set` -/
/-- **C1 (amended).** `Setting.Set` decides silence from the equality
computed on the pre-mutation value: the notification targets fired are
exactly the registered subscriber list (each once, in order, handed the
updated setting) when the call succeeds and the pre-computed equality was
false, and nothing otherwise — in particular an equal-value write never
notifies.  The subscriber list itself is untouched by `Set`. -/
theorem C1_notification_discipline (st : SettingSt) (v : String) :
    (settingSet st v).2.2 =
      (if (settingSet st v).2.1 = .ok () ∧ settingEquals st v = false
       then (settingSet st v).1.notifiers else []) ∧
    (settingSet st v).1.notifiers = st.notifiers := by
  cases hp : valParse st.Value v with
  | error e => simp [settingSet, hp]
  | ok val' =>
      by_cases hs : settingEquals st v = true
      · simp [settingSet, hp, hs]
      · simp [settingSet, hp, hs, Bool.of_not_eq_true hs]

/-- **C1 counterexample.** On a setting holding an unsupported value whose
textual rendering equals the input, the pre-computed equality is true and
no subscriber is invoked, yet `Set` returns a non-nil (`type not
supported`) error — refuting the claim's "and the call returns nil". -/
theorem C1_counterexample :
    settingEquals c1CexSetting "xy" = true ∧
    (settingSet c1CexSetting "xy").2.1 = .error (.unsupported "struct") ∧
    (settingSet c1CexSetting "xy").2.2 = [] := by
  refine ⟨rfl, rfl, rfl⟩

/-! ## Claim C2: coercion failures on builtin kinds -/
/-- **C2.** For a builtin-kind setting, when the text does not parse as
the stored kind, `Set` returns the typed error naming the target type and
wrapping the parser's diagnostic verbatim, the setting (value,
write-through payload, default, subscribers) is returned unchanged, and
no notification target fires. -/
theorem C2_coercion_failure (st : SettingSt) (p : Bool) (bv : BVal) (v msg : String)
    (hval : st.Value = .builtin p bv) (hp : bv.parse v = .error msg) :
    settingSet st v = (st, .error (.cast bv.castName msg), []) := by
  have hvp : valParse st.Value v = .error (.cast bv.castName msg) := by
    rw [hval]; simp [valParse, hp]
  simp [settingSet, hvp]

theorem C2_witness :
    settingSet c2Setting "banana" =
      (c2Setting, .error (.cast "boolean" (ParseErr.msg ⟨"ParseBool", "banana", false⟩)), []) :=
  C2_coercion_failure c2Setting false (.b false) "banana" _ rfl rfl

/-! ## Claim C6: masking is display-only -/
/-- **C6.** A masked setting renders the fixed redaction marker regardless
of the stored value, also right after a successful `Set` (which preserves
the flag); and `Set`/`Equals` are insensitive to the flag: flipping it
changes neither the equality answer, nor the resulting value/error/fired
notifications of `Set`. -/
theorem C6_mask_display_only (st : SettingSt) (v : String) (m : Bool) :
    (st.Mask = true → settingString st = "*****") ∧
    (settingSet st v).1.Mask = st.Mask ∧
    (st.Mask = true → settingString (settingSet st v).1 = "*****") ∧
    settingEquals { st with Mask := m } v = settingEquals st v ∧
    (settingSet { st with Mask := m } v).1 = { (settingSet st v).1 with Mask := m } ∧
    (settingSet { st with Mask := m } v).2 = (settingSet st v).2 := by
  have hmask : ∀ b, (settingSet st v).1.Mask = st.Mask ∧
      (settingSet { st with Mask := b } v).1 = { (settingSet st v).1 with Mask := b } ∧
      (settingSet { st with Mask := b } v).2 = (settingSet st v).2 := by
    intro b
    cases hp : valParse st.Value v with
    | error e => simp [settingSet, settingEquals, hp]
    | ok val' =>
        by_cases hs : valEquals st.Value v = true <;>
          simp [settingSet, settingEquals, hp, hs]
  refine ⟨fun h => by simp [settingString, h], (hmask m).1, fun h => ?_,
    by simp [settingEquals], (hmask m).2.1, (hmask m).2.2⟩
  have := (hmask m).1
  simp [settingString, this, h]

theorem C6_witness :
    settingString c6Setting = "*****" ∧
    settingString (settingSet c6Setting "other").1 = "*****" ∧
    settingEquals { c6Setting with Mask := false } "hunter2" = settingEquals c6Setting "hunter2" :=
  ⟨(C6_mask_display_only c6Setting "other" false).1 rfl,
   (C6_mask_display_only c6Setting "other" false).2.2.1 rfl,
   (C6_mask_display_only c6Setting "hunter2" false).2.2.2.1⟩

/-! ## Claim C9: string settings never fail to coerce -/
/-- **C9.** On a `string`/`*string` setting, `Set` succeeds for every
input without parsing (the input becomes the stored/written-through
value verbatim), and `Equals` holds exactly on character-for-character
equality with the stored string. -/
theorem C9_string_kind (st : SettingSt) (p : Bool) (x v : String)
    (hval : st.Value = .builtin p (.s x)) :
    (settingSet st v).2.1 = .ok () ∧
    (settingSet st v).1.Value = .builtin p (.s v) ∧
    (settingEquals st v = true ↔ x = v) := by
  have hvp : valParse st.Value v = .ok (.builtin p (.s v)) := by
    rw [hval]; simp [valParse, BVal.parse]
  have heq : settingEquals st v = (x == v) := by
    simp [settingEquals, valEquals, hval, BVal.parse, BVal.sameValue]
  refine ⟨?_, ?_, ?_⟩
  · by_cases hs : settingEquals st v = true <;> simp [settingSet, hvp, hs]
  · by_cases hs : settingEquals st v = true <;> simp [settingSet, hvp, hs]
  · rw [heq]; simp

theorem lookupA_cons {α : Type} (k₁ : String) (x : α) (l : List (String × α)) (k : String) :
    lookupA ((k₁, x) :: l) k = if k₁ = k then some x else lookupA l k := by
  simp only [lookupA, List.find?]
  by_cases h : k₁ = k
  · simp [h]
  · have hb : (k₁ == k) = false := beq_eq_false_iff_ne.mpr h
    simp [h, hb]

theorem lookupA_append_of_none {α : Type} {l₁ : List (String × α)} {k : String}
    (h : lookupA l₁ k = none) (l₂ : List (String × α)) :
    lookupA (l₁ ++ l₂) k = lookupA l₂ k := by
  induction l₁ with
  | nil => rfl
  | cons e l ih =>
      obtain ⟨k₁, x⟩ := e
      rw [lookupA_cons] at h
      by_cases hk : k₁ = k
      · simp [hk] at h
      · rw [if_neg hk] at h
        simpa [lookupA_cons, hk] using ih h

theorem lookupA_append_of_some {α : Type} {l₁ : List (String × α)} {k : String} {x : α}
    (h : lookupA l₁ k = some x) (l₂ : List (String × α)) :
    lookupA (l₁ ++ l₂) k = some x := by
  induction l₁ with
  | nil => simp [lookupA] at h
  | cons e l ih =>
      obtain ⟨k₁, y⟩ := e
      rw [lookupA_cons] at h
      by_cases hk : k₁ = k
      · rw [if_pos hk] at h
        simp [lookupA_cons, hk, h]
      · rw [if_neg hk] at h
        simpa [lookupA_cons, hk] using ih h

theorem lookupA_updateA {α : Type} (l : List (String × α)) (k : String) (f : α → α) :
    lookupA (updateA l k f) k = (lookupA l k).map f := by
  induction l with
  | nil => rfl
  | cons e l ih =>
      obtain ⟨k₁, x⟩ := e
      by_cases hk : k₁ = k
      · simp [updateA, lookupA_cons, hk]
      · simpa [updateA, lookupA_cons, hk] using ih

theorem updateA_cons {α : Type} (k₁ : String) (x : α) (l : List (String × α)) (k : String)
    (f : α → α) :
    updateA ((k₁, x) :: l) k f =
      (if k₁ = k then (k₁, f x) else (k₁, x)) :: updateA l k f := by
  simp only [updateA, List.map_cons]
  congr 1
  by_cases h : k₁ = k <;> simp [h]

theorem lookupA_updateA_ne {α : Type} (l : List (String × α)) (k k' : String) (f : α → α)
    (h : k ≠ k') : lookupA (updateA l k f) k' = lookupA l k' := by
  induction l with
  | nil => rfl
  | cons e l ih =>
      obtain ⟨k₁, x⟩ := e
      rw [updateA_cons]
      by_cases hk : k₁ = k
      · have hne : k₁ ≠ k' := hk ▸ h
        rw [if_pos hk, lookupA_cons, lookupA_cons, if_neg hne, if_neg hne, ih]
      · rw [if_neg hk, lookupA_cons, lookupA_cons, ih]

theorem lookupA_eq_none_of_forall_ne {α : Type} {l : List (String × α)} {k : String}
    (h : ∀ e ∈ l, e.1 ≠ k) : lookupA l k = none := by
  induction l with
  | nil => rfl
  | cons e l ih =>
      obtain ⟨k₁, x⟩ := e
      rw [lookupA_cons, if_neg (h (k₁, x) (by simp))]
      exact ih fun e he => h e (by simp [he])

theorem mem_of_lookupA_some {α : Type} {l : List (String × α)} {k : String} {x : α}
    (h : lookupA l k = some x) : (k, x) ∈ l := by
  induction l with
  | nil => simp [lookupA] at h
  | cons e l ih =>
      obtain ⟨k₁, y⟩ := e
      rw [lookupA_cons] at h
      by_cases hk : k₁ = k
      · rw [if_pos hk] at h
        simp only [Option.some.injEq] at h
        subst hk; subst h
        simp
      · rw [if_neg hk] at h
        exact List.mem_cons_of_mem _ (ih h)

theorem lookupA_ne_none_of_mem {α : Type} {l : List (String × α)} {e : String × α}
    (he : e ∈ l) : lookupA l e.1 ≠ none := by
  induction l with
  | nil => simp at he
  | cons e' l ih =>
      obtain ⟨k₁, x⟩ := e'
      rw [lookupA_cons]
      by_cases hk : k₁ = e.1
      · simp [hk]
      · rw [if_neg hk]
        rcases List.mem_cons.mp he with rfl | hmem
        · exact absurd rfl hk
        · exact ih hmem

theorem updateA_append {α : Type} (l₁ l₂ : List (String × α)) (k : String) (f : α → α) :
    updateA (l₁ ++ l₂) k f = updateA l₁ k f ++ updateA l₂ k f := by
  simp [updateA]

theorem updateA_eq_of_forall_ne {α : Type} {l : List (String × α)} {k : String} (f : α → α)
    (h : ∀ e ∈ l, e.1 ≠ k) : updateA l k f = l := by
  induction l with
  | nil => rfl
  | cons e l ih =>
      obtain ⟨k₁, x⟩ := e
      rw [updateA_cons, if_neg (h (k₁, x) (by simp))]
      rw [ih fun e he => h e (by simp [he])]

theorem length_lowerStr (s : String) : (lowerStr s).length = s.length := by
  obtain ⟨cs⟩ := s
  show (cs.map lowerChar).length = cs.length
  exact List.length_map cs lowerChar

theorem length_pos_of_ne_empty {s : String} (h : s ≠ "") : 0 < s.length := by
  obtain ⟨cs⟩ := s
  cases cs with
  | nil => exact absurd rfl h
  | cons c cs => simp [String.length]

/-- `(s ++ "." ++ t).length`, spelled out for the path-length arguments. -/
theorem length_dot_append (s t : String) :
    (s ++ "." ++ t).length = s.length + 1 + t.length := by
  have hdot : ("." : String).length = 1 := rfl
  simp only [String.length_append, hdot]

/-! ## Claim C5: path uniqueness and creation preconditions -/
/-- **C5.** In one registry: an empty name is a fatal precondition
failure, as is an absent value; creating a setting whose resolved
lowercased full path already sits in the root's flat map is fatal; and a
second `Subset` call resolving to the same path returns the identical
child (same handle, registry untouched). -/
theorem C5_path_uniqueness (r : Registry) (h h2 : Option String) (name name2 : String)
    (v : Option Val) (vv : Val) (desc : String) (st0 : SettingSt) :
    settingOp r h "" v desc = .error "name can not be empty" ∧
    (name ≠ "" → settingOp r h name none desc = .error "value can not be nil") ∧
    (name ≠ "" → lookupA r.settings (lowerStr (childPath r h name)) = some st0 →
      settingOp r h name (some vv) desc =
        .error ("setting " ++ goQuote (childPath r h name) ++ " already exists")) ∧
    (lowerStr (childPath (subsetOp r h name).1 h2 name2) = lowerStr (childPath r h name) →
      subsetOp (subsetOp r h name).1 h2 name2 = subsetOp r h name) := by
  refine ⟨by simp [settingOp], fun hn => by simp [settingOp, hn], fun hn hl => ?_, fun hkey => ?_⟩
  · simp [settingOp, hn, hl]
  · cases hl : lookupA r.nodes (lowerStr (childPath r h name)) with
    | some nd =>
        have h1 : subsetOp r h name = (r, some (lowerStr (childPath r h name))) := by
          simp [subsetOp, hl]
        rw [h1] at hkey ⊢
        simp only at hkey
        simp [subsetOp, hkey, hl]
    | none =>
        have h1 : subsetOp r h name =
            ({ r with nodes := r.nodes ++
                [(lowerStr (childPath r h name),
                  ⟨name, childPath r h name, h, []⟩)] },
              some (lowerStr (childPath r h name))) := by
          simp [subsetOp, hl]
        rw [h1] at hkey ⊢
        simp only at hkey
        have hfind : lookupA (r.nodes ++
            [(lowerStr (childPath r h name), (⟨name, childPath r h name, h, []⟩ : SetNode))])
            (lowerStr (childPath r h name)) =
            some ⟨name, childPath r h name, h, []⟩ := by
          rw [lookupA_append_of_none hl, lookupA_cons, if_pos rfl]
        simp [subsetOp, hkey, hfind]

theorem C5_witness :
    settingOp c5Reg none "" (some (.builtin false (.b false))) "" =
      .error "name can not be empty" ∧
    settingOp c5Reg none "x" none "" = .error "value can not be nil" ∧
    settingOp c5Reg none "dUP" (some (.builtin false (.b true))) "" =
      .error ("setting " ++ goQuote "dUP" ++ " already exists") ∧
    subsetOp (subsetOp c5Reg none "Child").1 none "Child" = subsetOp c5Reg none "Child" := by
  have h := C5_path_uniqueness c5Reg none none "dUP" "Child"
    (some (.builtin false (.b false))) (.builtin false (.b true)) ""
    ⟨false, "Dup", "", "false", "Dup", .builtin false (.b false), [.ownerSet none]⟩
  have h2 := C5_path_uniqueness c5Reg none none "Child" "Child"
    (some (.builtin false (.b false))) (.builtin false (.b true)) ""
    ⟨false, "Dup", "", "false", "Dup", .builtin false (.b false), [.ownerSet none]⟩
  exact ⟨h.1, h.2.1 (by decide), h.2.2.1 (by decide) rfl, h2.2.2.2 rfl⟩

/-! ## Claim C10: the default snapshot is taken unmasked -/
/-- **C10.** `Set.Setting` snapshots `DefaultValue` through `String()`
while `Mask` is still false, and `Bind` applies the mask tag only after
creation: a field bound with mask enabled ends with `Mask` set, but its
`DefaultValue` holds the real formatted default text, not the redaction
marker that `String()` now returns. -/
theorem C10_default_snapshot_unmasked (r : Registry) (h : Option String) (name : String)
    (v : Val) (desc : String) (mask : Bool) (r1 : Registry) (key : String) (invs : List Nat)
    (hok : bindFieldOp r h name v desc mask = .ok (r1, key, invs)) :
    ∃ st, lookupA r1.settings key = some st ∧
      st.DefaultValue = valFormat v ∧
      st.Mask = mask ∧
      st.Value = v ∧
      (mask = true → settingString st = "*****") := by
  by_cases hn : name = ""
  · simp [bindFieldOp, settingOp, hn] at hok
  · cases hl : lookupA r.settings (lowerStr (childPath r h name)) with
    | some st' => simp [bindFieldOp, settingOp, hn, hl] at hok
    | none =>
        have hset : settingOp r h name (some v) desc =
            .ok ({ r with settings := r.settings ++
                    [(lowerStr (childPath r h name),
                      ⟨false, name, desc, valFormat v, childPath r h name, v, [.ownerSet h]⟩)] },
              lowerStr (childPath r h name),
              notifyChanged { r with settings := r.settings ++
                    [(lowerStr (childPath r h name),
                      ⟨false, name, desc, valFormat v, childPath r h name, v, [.ownerSet h]⟩)] } h) := by
          simp [settingOp, hn, hl, settingString]
        rw [bindFieldOp, hset] at hok
        simp only [Except.ok.injEq, Prod.mk.injEq] at hok
        obtain ⟨hr1, hkey, _⟩ := hok
        refine ⟨⟨mask, name, desc, valFormat v, childPath r h name, v, [.ownerSet h]⟩, ?_, rfl, rfl, rfl,
          fun hm => by simp [settingString, hm]⟩
        rw [← hr1, ← hkey]
        simp only
        rw [lookupA_updateA, lookupA_append_of_none hl, lookupA_cons, if_pos rfl]
        rfl

theorem C10_witness :
    ∃ st, (match c10Result with
      | .ok res => lookupA res.1.settings res.2.1
      | .error _ => none) = some st ∧
      st.DefaultValue = "hunter2" ∧ st.Mask = true ∧ settingString st = "*****" := by
  obtain ⟨st, hl, hdv, hm, _, hs⟩ :=
    C10_default_snapshot_unmasked emptyRegistry none "Password"
      (.builtin true (.s "hunter2")) "Super secret password" true _ _ _ rfl
  exact ⟨st, hl, hdv, hm, hs rfl⟩

/-- **C7 counterexample.** In a subset created as `"A"` (path `"A"`,
stored under the lowercased key `"a"`), the setting `"x"` is registered
with full path `"A.x"` — which does have the set's path `"A"` as a prefix
— yet `Range` over that subset with an always-true callback visits
nothing, because the code compares the lowercased map key `"a.x"` against
the unlowercased path `"A"`. -/
theorem C7_counterexample :
    rangeOp c7Reg (some "a") (fun _ _ => true) = [] ∧
    refPath c7Reg (some "a") = "A" ∧
    (∃ st, lookupA c7Reg.settings "a.x" = some st ∧ st.Path = "A.x") ∧
    goHasPrefix "A.x" "A" = true := by
  exact ⟨rfl, rfl, ⟨_, rfl, rfl⟩, rfl⟩

/-- **C7 (amended).** `Range` invokes the callback on exactly those
entries of the root's flat map whose (lowercased) key has this set's
path — taken verbatim, not lowercased — as a string prefix, in map
order, stopping right after the first callback that returns false. -/
theorem C7_range_visits (r : Registry) (h : Option String) (fn : String → SettingSt → Bool) :
    rangeOp r h fn =
      stopAtFalse fn (r.settings.filter (fun e => goHasPrefix e.1 (refPath r h))) := by
  unfold rangeOp
  generalize refPath r h = p
  generalize r.settings = l
  induction l with
  | nil => rfl
  | cons e rest ih =>
      by_cases hp : goHasPrefix e.1 p = true
      · by_cases hf : fn e.1 e.2 = true <;>
          simp [rangeVisit, stopAtFalse, hp, hf, ih]
      · simp [rangeVisit, stopAtFalse, hp, Bool.of_not_eq_true hp, ih]

theorem chainSpec_length :
    ∀ (ns : List String) (p : String) (h : Option String) (i : Nat),
      (chainSpec p h i ns).1.length = ns.length := by
  intro ns
  induction ns with
  | nil => intro p h i; rfl
  | cons n ns ih => intro p h i; simp [chainSpec, ih]

theorem chainSpec_key_length :
    ∀ (ns : List String) (p : String) (h : Option String) (i : Nat),
      (∀ n ∈ ns, n ≠ "") →
      ∀ e ∈ (chainSpec p h i ns).1, p.length < e.1.length := by
  intro ns
  induction ns with
  | nil => intro p h i _ e he; simp [chainSpec] at he
  | cons n ns ih =>
      intro p h i hne e he
      have hn : n ≠ "" := hne n (by simp)
      have hplt : p.length < (if p = "" then n else p ++ "." ++ n).length := by
        by_cases hp : p = ""
        · simpa [hp] using length_pos_of_ne_empty hn
        · rw [if_neg hp, length_dot_append]
          omega
      simp only [chainSpec, List.mem_cons] at he
      rcases he with rfl | he
      · simpa [length_lowerStr] using hplt
      · exact lt_trans hplt (ih _ _ _ (fun m hm => hne m (by simp [hm])) e he)

theorem chainSpec_lookup :
    ∀ (ns : List String) (p : String) (h : Option String) (i : Nat),
      (∀ n ∈ ns, n ≠ "") →
      ∀ e ∈ (chainSpec p h i ns).1, lookupA (chainSpec p h i ns).1 e.1 = some e.2 := by
  intro ns
  induction ns with
  | nil => intro p h i _ e he; simp [chainSpec] at he
  | cons n ns ih =>
      intro p h i hne e he
      have hne' : ∀ m ∈ ns, m ≠ "" := fun m hm => hne m (by simp [hm])
      simp only [chainSpec, List.mem_cons] at he ⊢
      rcases he with rfl | he
      · rw [lookupA_cons, if_pos rfl]
      · have hlong : (lowerStr (if p = "" then n else p ++ "." ++ n)).length < e.1.length := by
          have := chainSpec_key_length ns (if p = "" then n else p ++ "." ++ n)
            (some (lowerStr (if p = "" then n else p ++ "." ++ n))) (i + 1) hne' e he
          rwa [length_lowerStr]
        rw [lookupA_cons, if_neg (fun hcon => by rw [hcon] at hlong; omega)]
        exact ih _ _ _ hne' e he

theorem buildChainSub_spec :
    ∀ (ns : List String) (r : Registry) (h : Option String) (i : Nat),
      (∀ n ∈ ns, n ≠ "") →
      (∀ e ∈ r.nodes, e.1.length ≤ (refPath r h).length) →
      buildChainSub r h i ns =
        ({ r with nodes := r.nodes ++ (chainSpec (refPath r h) h i ns).1 },
          (chainSpec (refPath r h) h i ns).2) := by
  intro ns
  induction ns with
  | nil => intro r h i _ _; simp [buildChainSub, chainSpec]
  | cons n ns ih =>
      intro r h i hne hlen
      have hn : n ≠ "" := hne n (by simp)
      have hne' : ∀ m ∈ ns, m ≠ "" := fun m hm => hne m (by simp [hm])
      have hplt : (refPath r h).length < (childPath r h n).length := by
        by_cases hp : refPath r h = ""
        · simpa [childPath, hp] using length_pos_of_ne_empty hn
        · rw [childPath, if_neg hp, length_dot_append]
          omega
      have hkeysne : ∀ e ∈ r.nodes, e.1 ≠ lowerStr (childPath r h n) := by
        intro e he hcon
        have := hlen e he
        rw [hcon, length_lowerStr] at this
        omega
      have hnone : lookupA r.nodes (lowerStr (childPath r h n)) = none :=
        lookupA_eq_none_of_forall_ne hkeysne
      have hsub : subsetOp r h n =
          ({ r with nodes := r.nodes ++
              [(lowerStr (childPath r h n), ⟨n, childPath r h n, h, []⟩)] },
            some (lowerStr (childPath r h n))) := by
        simp [subsetOp, hnone]
      have hupd : updateA (r.nodes ++
            [(lowerStr (childPath r h n), (⟨n, childPath r h n, h, []⟩ : SetNode))])
            (lowerStr (childPath r h n)) (fun nd => { nd with subs := nd.subs ++ [i] }) =
          r.nodes ++ [(lowerStr (childPath r h n), ⟨n, childPath r h n, h, [i]⟩)] := by
        rw [updateA_append, updateA_eq_of_forall_ne _ hkeysne, updateA_cons, if_pos rfl]
        rfl
      have hstep : buildChainSub r h i (n :: ns) =
          buildChainSub
            { r with nodes := r.nodes ++
                [(lowerStr (childPath r h n), ⟨n, childPath r h n, h, [i]⟩)] }
            (some (lowerStr (childPath r h n))) (i + 1) ns := by
        show buildChainSub
            (setNotifyOp (subsetOp r h n).1 (subsetOp r h n).2 (some i))
            (subsetOp r h n).2 (i + 1) ns = _
        rw [hsub]
        simp only [setNotifyOp]
        rw [hupd]
      have hrefp : refPath
          { r with nodes := r.nodes ++
              [(lowerStr (childPath r h n), (⟨n, childPath r h n, h, [i]⟩ : SetNode))] }
          (some (lowerStr (childPath r h n))) = childPath r h n := by
        simp only [refPath]
        rw [lookupA_append_of_none hnone, lookupA_cons, if_pos rfl]
        rfl
      have hlen' : ∀ e ∈ (r.nodes ++
            [(lowerStr (childPath r h n), (⟨n, childPath r h n, h, [i]⟩ : SetNode))]),
          e.1.length ≤ (childPath r h n).length := by
        intro e he
        rcases List.mem_append.mp he with he | he
        · exact le_of_lt (lt_of_le_of_lt (hlen e he) hplt)
        · simp only [List.mem_singleton] at he
          subst he
          simp [length_lowerStr]
      have hlen2 : ∀ e ∈ ({ r with nodes := r.nodes ++
            [(lowerStr (childPath r h n), (⟨n, childPath r h n, h, [i]⟩ : SetNode))] } :
            Registry).nodes,
          e.1.length ≤ (refPath
            { r with nodes := r.nodes ++
              [(lowerStr (childPath r h n), (⟨n, childPath r h n, h, [i]⟩ : SetNode))] }
            (some (lowerStr (childPath r h n)))).length := by
        rw [hrefp]
        exact hlen'
      have hih := ih { r with nodes := r.nodes ++
          [(lowerStr (childPath r h n), ⟨n, childPath r h n, h, [i]⟩)] }
        (some (lowerStr (childPath r h n))) (i + 1) hne' hlen2
      rw [hstep, hih, hrefp]
      have hunfold : chainSpec (refPath r h) h i (n :: ns) =
          ((lowerStr (childPath r h n), ⟨n, childPath r h n, h, [i]⟩) ::
            (chainSpec (childPath r h n) (some (lowerStr (childPath r h n))) (i + 1) ns).1,
           (chainSpec (childPath r h n) (some (lowerStr (childPath r h n))) (i + 1) ns).2) := rfl
      rw [hunfold]
      simp

theorem notifyChangedFuel_none (r : Registry) (fuel : Nat) :
    notifyChangedFuel r fuel none = r.rootSubs := by
  cases fuel <;> rfl

theorem notifyChangedFuel_chain (R : Registry) :
    ∀ (ns : List String) (p : String) (h : Option String) (i : Nat) (L : List Nat)
      (fuel0 : Nat),
      (∀ e ∈ (chainSpec p h i ns).1, lookupA R.nodes e.1 = some e.2) →
      (∀ fuel, fuel0 ≤ fuel → notifyChangedFuel R fuel h = L) →
      ∀ fuel, fuel0 + ns.length ≤ fuel →
        notifyChangedFuel R fuel (chainSpec p h i ns).2 =
          (List.range' i ns.length).reverse ++ L := by
  intro ns
  induction ns with
  | nil =>
      intro p h i L fuel0 _ hbase fuel hfuel
      simpa [chainSpec] using hbase fuel (by omega)
  | cons n ns ih =>
      intro p h i L fuel0 hlook hbase fuel hfuel
      have hheadlook : lookupA R.nodes (lowerStr (if p = "" then n else p ++ "." ++ n)) =
          some ⟨n, (if p = "" then n else p ++ "." ++ n), h, [i]⟩ :=
        hlook (lowerStr (if p = "" then n else p ++ "." ++ n),
          ⟨n, (if p = "" then n else p ++ "." ++ n), h, [i]⟩) (by simp [chainSpec])
      have hrestlook : ∀ e ∈ (chainSpec (if p = "" then n else p ++ "." ++ n)
            (some (lowerStr (if p = "" then n else p ++ "." ++ n))) (i + 1) ns).1,
          lookupA R.nodes e.1 = some e.2 := by
        intro e he
        exact hlook e (by simp [chainSpec, he])
      have hbase' : ∀ fuel', fuel0 + 1 ≤ fuel' →
          notifyChangedFuel R fuel'
            (some (lowerStr (if p = "" then n else p ++ "." ++ n))) = i :: L := by
        intro fuel' hf
        obtain ⟨fuel'', rfl⟩ : ∃ m, fuel' = m + 1 := ⟨fuel' - 1, by omega⟩
        rw [notifyChangedFuel, hheadlook]
        simp [hbase fuel'' (by omega)]
      have hrec := ih (if p = "" then n else p ++ "." ++ n)
        (some (lowerStr (if p = "" then n else p ++ "." ++ n))) (i + 1) (i :: L)
        (fuel0 + 1) hrestlook hbase' fuel (by simp at hfuel ⊢; omega)
      rw [show (chainSpec p h i (n :: ns)).2 =
        (chainSpec (if p = "" then n else p ++ "." ++ n)
          (some (lowerStr (if p = "" then n else p ++ "." ++ n))) (i + 1) ns).2 from rfl]
      rw [hrec]
      rw [show List.range' i (n :: ns).length = i :: List.range' (i + 1) ns.length from rfl]
      simp

theorem range_reverse_decomp (k : Nat) :
    (List.range' 1 k).reverse ++ [0] = (List.range (k + 1)).reverse := by
  rw [List.range_eq_range']
  rw [show List.range' 0 (k + 1) = 0 :: List.range' 1 k from rfl]
  simp

/-- `Set.Setting` on a fresh path: the created setting, its default
snapshot, the owning set's subscription, and the creation notification. -/
theorem settingOp_ok (r : Registry) (h : Option String) (name : String) (v : Val)
    (desc : String) (hn : name ≠ "")
    (hnone : lookupA r.settings (lowerStr (childPath r h name)) = none) :
    settingOp r h name (some v) desc =
      .ok ({ r with settings := r.settings ++
              [(lowerStr (childPath r h name),
                ⟨false, name, desc, valFormat v, childPath r h name, v, [.ownerSet h]⟩)] },
        lowerStr (childPath r h name),
        notifyChanged { r with settings := r.settings ++
              [(lowerStr (childPath r h name),
                ⟨false, name, desc, valFormat v, childPath r h name, v, [.ownerSet h]⟩)] } h) := by
  simp [settingOp, hn, hnone, settingString]

/-- `Set.Subset` when the resulting path is new. -/
theorem subsetOp_new (r : Registry) (h : Option String) (name : String)
    (hnone : lookupA r.nodes (lowerStr (childPath r h name)) = none) :
    subsetOp r h name =
      ({ r with nodes := r.nodes ++
          [(lowerStr (childPath r h name), ⟨name, childPath r h name, h, []⟩)] },
        some (lowerStr (childPath r h name))) := by
  simp [subsetOp, hnone]

/-- `Set.Subset` when the resulting path already exists. -/
theorem subsetOp_found (r : Registry) (h : Option String) (name : String) (nd : SetNode)
    (hsome : lookupA r.nodes (lowerStr (childPath r h name)) = some nd) :
    subsetOp r h name = (r, some (lowerStr (childPath r h name))) := by
  simp [subsetOp, hsome]

/-- `Setting.Set` through the registry on a setting subscribed to by the
deepest node of a chain: the invocations are the chain subscribers from
the leaf upward, ending with the root subscriber. -/
theorem regSettingSet_chain (R : Registry) (skey : String) (St : SettingSt)
    (chain : List String) (text : String)
    (hlookS : lookupA R.settings skey = some St)
    (hnot : St.notifiers = [.ownerSet (chainSpec "" none 1 chain).2])
    (hlook : ∀ e ∈ (chainSpec "" none 1 chain).1, lookupA R.nodes e.1 = some e.2)
    (hroot : R.rootSubs = [0])
    (hfuel : chain.length ≤ R.nodes.length)
    (hok : ∃ v', valParse St.Value text = .ok v')
    (hchg : valEquals St.Value text = false) :
    (regSettingSet R skey text).2.2 = (List.range (chain.length + 1)).reverse := by
  obtain ⟨v', hv'⟩ := hok
  have hset : settingSet St text = ({ St with Value := v' }, .ok (), St.notifiers) := by
    simp [settingSet, settingEquals, hchg, hv']
  have hreg : (regSettingSet R skey text).2.2 =
      dispatchTargets
        { R with settings := updateA R.settings skey (fun _ => (settingSet St text).1) }
        St.notifiers := by
    simp [regSettingSet, hlookS, hset]
  rw [hreg, hnot]
  have hflat : dispatchTargets
      { R with settings := updateA R.settings skey (fun _ => (settingSet St text).1) }
      [.ownerSet (chainSpec "" none 1 chain).2] =
      notifyChanged
        { R with settings := updateA R.settings skey (fun _ => (settingSet St text).1) }
        (chainSpec "" none 1 chain).2 := by
    simp [dispatchTargets]
  rw [hflat]
  have hres := notifyChangedFuel_chain
    { R with settings := updateA R.settings skey (fun _ => (settingSet St text).1) }
    chain "" none 1 [0] 0
    (fun e he => hlook e he)
    (fun fuel _ => by rw [notifyChangedFuel_none]; exact hroot)
    (R.nodes.length + 1) (by omega)
  rw [notifyChanged, hres]
  exact range_reverse_decomp chain.length

/-- **C4.** For every chain of nested subsets (nonempty segment names)
carrying one subscriber per set — `0` on the root, `j` on the `j`-th
subset — plus one subscriber on an unrelated subset that is none of the
chain's nodes, a value-changing `Setting.Set` on a setting created in the
deepest subset invokes exactly the chain's subscribers from the leaf up
to the root (`chain.length, …, 1, 0`) — so the root subscriber observes
the change — and never the unrelated subset's subscriber. -/
theorem C4_upward_propagation (chain : List String) (sname : String) (v : Val)
    (hAtt : Option String) (sibName text : String)
    (hne : ∀ n ∈ chain, n ≠ "") (hsn : sname ≠ "")
    (hsib : ∀ e ∈ (chainSpec "" none 1 chain).1,
      (c4Scenario chain sname v hAtt sibName).2.2 ≠ some e.1)
    (hok : ∃ v', valParse v text = .ok v')
    (hchg : valEquals v text = false) :
    (regSettingSet (c4Scenario chain sname v hAtt sibName).1
        (c4Scenario chain sname v hAtt sibName).2.1 text).2.2 =
      (List.range (chain.length + 1)).reverse ∧
    chain.length + 1 ∉ (regSettingSet (c4Scenario chain sname v hAtt sibName).1
        (c4Scenario chain sname v hAtt sibName).2.1 text).2.2 := by
  set CN := (chainSpec "" none 1 chain).1 with hCNdef
  set Hh := (chainSpec "" none 1 chain).2 with hHdef
  set SKEY := lowerStr (childPath (⟨CN, [], [0]⟩ : Registry) Hh sname) with hSKEYdef
  set St := (⟨false, sname, "", valFormat v,
      childPath (⟨CN, [], [0]⟩ : Registry) Hh sname, v, [.ownerSet Hh]⟩ : SettingSt) with hStdef
  set R2 := (⟨CN, [(SKEY, St)], [0]⟩ : Registry) with hR2def
  -- the chain build
  have hbase : buildChainSub (setNotifyOp emptyRegistry none (some 0)) none 1 chain =
      ((⟨CN, [], [0]⟩ : Registry), Hh) := by
    have hb := buildChainSub_spec chain ⟨[], [], [0]⟩ none 1 hne (by intro e he; simp at he)
    show buildChainSub ⟨[], [], [0]⟩ none 1 chain = _
    rw [hb]
    rfl
  -- the setting creation in the deepest subset
  have hsetop : settingOp (⟨CN, [], [0]⟩ : Registry) Hh sname (some v) "" =
      .ok (R2, SKEY, notifyChanged R2 Hh) := by
    rw [settingOp_ok (⟨CN, [], [0]⟩ : Registry) Hh sname v "" hsn rfl]
    rfl
  -- the scenario in terms of the intermediate registry
  have hscen : c4Scenario chain sname v hAtt sibName =
      (setNotifyOp (subsetOp R2 hAtt sibName).1 (subsetOp R2 hAtt sibName).2
          (some (chain.length + 1)),
        SKEY, (subsetOp R2 hAtt sibName).2) := by
    simp only [c4Scenario, hbase, hsetop]
  cases hsl : lookupA R2.nodes (lowerStr (childPath R2 hAtt sibName)) with
  | some nd =>
      -- the "unrelated" subset would be one of the chain's nodes
      exfalso
      have hmem : (lowerStr (childPath R2 hAtt sibName), nd) ∈ CN :=
        mem_of_lookupA_some hsl
      apply hsib _ hmem
      rw [hscen]
      rw [subsetOp_found R2 hAtt sibName nd hsl]
  | none =>
      have hsubnew := subsetOp_new R2 hAtt sibName hsl
      have hkeysne : ∀ e ∈ CN, e.1 ≠ lowerStr (childPath R2 hAtt sibName) := by
        intro e he hcon
        exact lookupA_ne_none_of_mem he (by rw [hcon]; exact hsl)
      have hupd : updateA (CN ++
            [(lowerStr (childPath R2 hAtt sibName),
              (⟨sibName, childPath R2 hAtt sibName, hAtt, []⟩ : SetNode))])
            (lowerStr (childPath R2 hAtt sibName))
            (fun nd => { nd with subs := nd.subs ++ [chain.length + 1] }) =
          CN ++ [(lowerStr (childPath R2 hAtt sibName),
            ⟨sibName, childPath R2 hAtt sibName, hAtt, [chain.length + 1]⟩)] := by
        rw [updateA_append, updateA_eq_of_forall_ne _ hkeysne, updateA_cons, if_pos rfl]
        rfl
      have hscen2 : c4Scenario chain sname v hAtt sibName =
          ((⟨CN ++ [(lowerStr (childPath R2 hAtt sibName),
              ⟨sibName, childPath R2 hAtt sibName, hAtt, [chain.length + 1]⟩)],
            [(SKEY, St)], [0]⟩ : Registry),
            SKEY, some (lowerStr (childPath R2 hAtt sibName))) := by
        rw [hscen, hsubnew]
        simp only [setNotifyOp]
        rw [hupd]
      rw [hscen2]
      have hlook4 : ∀ e ∈ (chainSpec "" none 1 chain).1,
          lookupA (CN ++ [(lowerStr (childPath R2 hAtt sibName),
            (⟨sibName, childPath R2 hAtt sibName, hAtt, [chain.length + 1]⟩ : SetNode))]) e.1 =
          some e.2 := by
        intro e he
        exact lookupA_append_of_some (chainSpec_lookup chain "" none 1 hne e he) _
      have hmain := regSettingSet_chain
        (⟨CN ++ [(lowerStr (childPath R2 hAtt sibName),
            ⟨sibName, childPath R2 hAtt sibName, hAtt, [chain.length + 1]⟩)],
          [(SKEY, St)], [0]⟩ : Registry)
        SKEY St chain text
        (by rw [show ((⟨CN ++ [(lowerStr (childPath R2 hAtt sibName),
            ⟨sibName, childPath R2 hAtt sibName, hAtt, [chain.length + 1]⟩)],
          [(SKEY, St)], [0]⟩ : Registry)).settings = [(SKEY, St)] from rfl,
          lookupA_cons, if_pos rfl])
        rfl hlook4 rfl
        (by rw [hCNdef]
            simp [chainSpec_length])
        hok hchg
      refine ⟨hmain, ?_⟩
      rw [hmain]
      simp [List.mem_reverse, List.mem_range]

theorem C4_witness :
    (regSettingSet
        (c4Scenario ["Alpha", "Beta", "Gamma"] "flag" (.builtin false (.b false)) none "Other").1
        (c4Scenario ["Alpha", "Beta", "Gamma"] "flag" (.builtin false (.b false)) none "Other").2.1
        "true").2.2 = [3, 2, 1, 0] ∧
    4 ∉ (regSettingSet
        (c4Scenario ["Alpha", "Beta", "Gamma"] "flag" (.builtin false (.b false)) none "Other").1
        (c4Scenario ["Alpha", "Beta", "Gamma"] "flag" (.builtin false (.b false)) none "Other").2.1
        "true").2.2 := by
  have h := C4_upward_propagation ["Alpha", "Beta", "Gamma"] "flag"
    (.builtin false (.b false)) none "Other" "true"
    (by decide) (by decide) (by decide) ⟨.builtin false (.b true), rfl⟩ (by decide)
  exact ⟨by rw [h.1]; rfl, h.2⟩

theorem isDigitCh_iff (c : Char) : isDigitCh c = true ↔ 48 ≤ c.toNat ∧ c.toNat ≤ 57 := by
  simp only [isDigitCh, Bool.and_eq_true, decide_eq_true_eq]
  constructor
  · rintro ⟨h1, h2⟩
    exact ⟨by exact_mod_cast h1, by exact_mod_cast h2⟩
  · rintro ⟨h1, h2⟩
    exact ⟨by exact_mod_cast h1, by exact_mod_cast h2⟩

theorem digitToNat_lt_10 {c : Char} (h : isDigitCh c = true) : digitToNat c < 10 := by
  obtain ⟨h1, h2⟩ := (isDigitCh_iff c).mp h
  simp only [digitToNat]
  omega

theorem ne_underscore_of_digit {c : Char} (h : isDigitCh c = true) : c ≠ '_' := by
  intro hcon
  rw [hcon] at h
  exact absurd h (by decide)

theorem no_underscore_of_digits {cs : List Char} (h : ∀ c ∈ cs, isDigitCh c = true) :
    cs.contains '_' = false := by
  induction cs with
  | nil => rfl
  | cons c cs ih =>
      have hc := ne_underscore_of_digit (h c (by simp))
      simp only [List.contains_cons, Bool.or_eq_false_iff]
      exact ⟨beq_eq_false_iff_ne.mpr (Ne.symm hc), ih fun c hc => h c (by simp [hc])⟩

theorem le_decValAcc (cs : List Char) : ∀ acc : Nat, acc * 10 ^ cs.length ≤ decValAcc acc cs := by
  induction cs with
  | nil => intro acc; simp [decValAcc]
  | cons c cs ih =>
      intro acc
      rw [decValAcc_cons]
      calc acc * 10 ^ (c :: cs).length = acc * 10 * 10 ^ cs.length := by
            rw [List.length_cons]; ring
        _ ≤ (acc * 10 + digitToNat c) * 10 ^ cs.length :=
            Nat.mul_le_mul_right _ (Nat.le_add_right _ _)
        _ ≤ decValAcc (acc * 10 + digitToNat c) cs := ih _

/-- One accepted digit step of the `ParseUint` loop. -/
theorem parseUintLoop_step (base maxVal : Nat) (s0 : String) (acc : Nat) (c : Char)
    (cs : List Char) (hc : isDigitCh c = true) (hd : ¬ digitToNat c ≥ base)
    (hcut : ¬ acc ≥ uintCutoff base)
    (hover : ¬ (acc * base + digitToNat c > maxUint64 ∨ acc * base + digitToNat c > maxVal)) :
    parseUintLoop base maxVal s0 acc (c :: cs) =
      parseUintLoop base maxVal s0 (acc * base + digitToNat c) cs := by
  rw [parseUintLoop, if_neg (by simp [ne_underscore_of_digit hc])]
  have hscr : (if isDigitCh c then some (digitToNat c) else letterDigit c) =
      some (digitToNat c) := by
    rw [hc]
    rfl
  rw [hscr]
  simp only [hd, hcut, hover, if_false, ite_false]

/-- The `ParseUint` digit loop on an all-digit decimal string computes the
decimal value, provided the final value fits `maxVal`. -/
theorem parseUintLoop_digits (maxVal : Nat) (s0 : String) (hmax : maxVal ≤ maxUint64) :
    ∀ (cs : List Char) (acc : Nat),
      (∀ c ∈ cs, isDigitCh c = true) →
      decValAcc acc cs ≤ maxVal →
      parseUintLoop 10 maxVal s0 acc cs = .ok (decValAcc acc cs) := by
  intro cs
  induction cs with
  | nil => intro acc _ _; rfl
  | cons c cs ih =>
      intro acc hdig hle
      have hc : isDigitCh c = true := hdig c (by simp)
      have hd10 : digitToNat c < 10 := digitToNat_lt_10 hc
      have hstep : decValAcc acc (c :: cs) = decValAcc (acc * 10 + digitToNat c) cs :=
        decValAcc_cons acc c cs
      have hmid : acc * 10 + digitToNat c ≤ maxVal := by
        have hlow := le_decValAcc cs (acc * 10 + digitToNat c)
        have h1 : acc * 10 + digitToNat c ≤ decValAcc (acc * 10 + digitToNat c) cs := by
          have hpow : 1 ≤ 10 ^ cs.length := Nat.one_le_iff_ne_zero.mpr (pow_ne_zero _ (by norm_num))
          calc acc * 10 + digitToNat c = (acc * 10 + digitToNat c) * 1 := by ring
            _ ≤ (acc * 10 + digitToNat c) * 10 ^ cs.length := Nat.mul_le_mul_left _ hpow
            _ ≤ decValAcc (acc * 10 + digitToNat c) cs := hlow
        rw [hstep] at hle
        omega
      have hcut : ¬ acc ≥ uintCutoff 10 := by
        have h10 : acc * 10 ≤ maxVal := by omega
        have h2 : acc ≤ maxUint64 / 10 := by
          have : acc * 10 ≤ maxUint64 := le_trans h10 hmax
          omega
        simp only [uintCutoff]
        omega
      rw [parseUintLoop_step 10 maxVal s0 acc c cs hc (by omega) hcut
        (by push_neg; exact ⟨by omega, hmid⟩), hstep]
      exact ih _ (fun c hc => hdig c (by simp [hc])) (by rw [hstep] at hle; exact hle)

/-- Successful runs of the digit loop stay within `maxVal`. -/
theorem parseUintLoop_le (base maxVal : Nat) (s0 : String) :
    ∀ (cs : List Char) (acc m : Nat), acc ≤ maxVal →
      parseUintLoop base maxVal s0 acc cs = .ok m → m ≤ maxVal := by
  intro cs
  induction cs with
  | nil =>
      intro acc m hacc hok
      simp only [parseUintLoop, Except.ok.injEq] at hok
      omega
  | cons c cs ih =>
      intro acc m hacc hok
      rw [parseUintLoop] at hok
      by_cases hu : c = '_'
      · rw [if_pos (by simp [hu])] at hok
        exact ih acc m hacc hok
      · rw [if_neg (by simp [hu])] at hok
        rcases hd : (if isDigitCh c then some (digitToNat c) else letterDigit c) with _ | d
        · rw [hd] at hok; cases hok
        · rw [hd] at hok
          simp only at hok
          by_cases h1 : d ≥ base
          · rw [if_pos h1] at hok; cases hok
          · rw [if_neg h1] at hok
            by_cases h2 : acc ≥ uintCutoff base
            · rw [if_pos h2] at hok; cases hok
            · rw [if_neg h2] at hok
              by_cases h3 : acc * base + d > maxUint64 ∨ acc * base + d > maxVal
              · rw [if_pos h3] at hok; cases hok
              · rw [if_neg h3] at hok
                push_neg at h3
                exact ih _ m h3.2 hok

/-- Successful `ParseUint` results fit the bit size. -/
theorem parseUintGo_le (bitSize : Nat) (s : String) (m : Nat)
    (hok : parseUintGo bitSize s = .ok m) : m ≤ 2 ^ bitSize - 1 := by
  unfold parseUintGo at hok
  rcases hdata : s.data with _ | ⟨c0, rest⟩ <;> rw [hdata] at hok
  · cases hok
  · simp only at hok
    rcases hloop : parseUintLoop (baseAndDigits c0 rest).1 (2 ^ bitSize - 1) s 0
        (baseAndDigits c0 rest).2 with e | nn <;> rw [hloop] at hok
    · cases hok
    · have hle := parseUintLoop_le _ _ _ _ _ _ (Nat.zero_le _) hloop
      simp only at hok
      by_cases hund : (baseAndDigits c0 rest).2.contains '_' = true ∧
          ¬ underscoreOK (c0 :: rest) = true
      · rw [if_pos hund] at hok; cases hok
      · rw [if_neg hund] at hok
        simp only [Except.ok.injEq] at hok
        omega

theorem natToString_data (n : Nat) : (natToString n).data = natChars n := rfl

/-- `ParseUint` reads the decimal rendering of an in-range value back. -/
theorem parseUintGo_roundtrip (bitSize : Nat) (hbits : bitSize ≤ 64) (n : Nat)
    (h : n ≤ 2 ^ bitSize - 1) : parseUintGo bitSize (natToString n) = .ok n := by
  have hmax : 2 ^ bitSize - 1 ≤ maxUint64 := by
    have : (2 : Nat) ^ bitSize ≤ 2 ^ 64 := Nat.pow_le_pow_right (by norm_num) hbits
    simp only [maxUint64]
    omega
  by_cases h0 : n = 0
  · subst h0
    rfl
  · have hpos : 0 < n := Nat.pos_of_ne_zero h0
    obtain ⟨c0, rest, hnc⟩ : ∃ c0 rest, natChars n = c0 :: rest := by
      rcases hnc : natChars n with _ | ⟨c0, rest⟩
      · exact absurd hnc (natChars_ne_nil n)
      · exact ⟨c0, rest, rfl⟩
    have hdigs : ∀ c ∈ c0 :: rest, isDigitCh c = true := by
      rw [← hnc]; exact natChars_all_digits n
    have hc0ne : c0 ≠ '0' := natChars_head_ne_zero hpos c0 rest hnc
    have hval : decValAcc 0 (c0 :: rest) = n := by
      rw [← hnc]
      simpa using decValAcc_natChars 0 n
    unfold parseUintGo
    rw [natToString_data, hnc]
    simp only
    have hbd : baseAndDigits c0 rest = (10, c0 :: rest) := by
      simp [baseAndDigits, hc0ne]
    rw [hbd]
    simp only
    rw [parseUintLoop_digits (2 ^ bitSize - 1) (natToString n) hmax (c0 :: rest) 0 hdigs
      (by rw [hval]; exact h)]
    rw [hval]
    simp only
    rw [if_neg (by
      rw [no_underscore_of_digits hdigs]
      simp)]

theorem ne_sign_of_digit {c : Char} (h : isDigitCh c = true) : c ≠ '+' ∧ c ≠ '-' := by
  constructor <;> intro hcon <;> rw [hcon] at h <;> exact absurd h (by decide)

/-- Successful `ParseInt` results fit the signed range of the bit size. -/
theorem parseIntGo_bounds (bitSize : Nat) (s : String) (x : Int)
    (hok : parseIntGo bitSize s = .ok x) :
    -(2 ^ (bitSize - 1) : Int) ≤ x ∧ x ≤ (2 ^ (bitSize - 1) : Int) - 1 := by
  unfold parseIntGo at hok
  rcases hdata : s.data with _ | ⟨c0, rest⟩ <;> rw [hdata] at hok
  · cases hok
  · simp only at hok
    rcases hpu : parseUintGo bitSize (if c0 = '+' ∨ c0 = '-' then String.mk rest else s)
        with e | un <;> rw [hpu] at hok
    · simp only at hok
      by_cases hr : e.isRange = true
      · rw [if_pos hr] at hok; cases hok
      · rw [if_neg hr] at hok; cases hok
    · have hun := parseUintGo_le _ _ _ hpu
      replace hok : (if ¬c0 = '-' ∧ un ≥ 2 ^ (bitSize - 1)
            then (Except.error ⟨"ParseInt", s, true⟩ : Except ParseErr Int)
            else if c0 = '-' ∧ un > 2 ^ (bitSize - 1)
            then Except.error ⟨"ParseInt", s, true⟩
            else Except.ok (if c0 = '-' then -(un : Int) else (un : Int))) = Except.ok x := hok
      by_cases hneg : c0 = '-'
      · rw [if_neg (by simp [hneg])] at hok
        by_cases h2 : un > 2 ^ (bitSize - 1)
        · rw [if_pos ⟨hneg, h2⟩] at hok; cases hok
        · rw [if_neg (by intro hcon; exact h2 hcon.2)] at hok
          rw [if_pos hneg] at hok
          simp only [Except.ok.injEq] at hok
          subst hok
          push_neg at h2
          have hpow : (1 : Int) ≤ 2 ^ (bitSize - 1) := one_le_pow₀ (by norm_num)
          constructor
          · simp only [neg_le_neg_iff]
            exact_mod_cast h2
          · have : (0 : Int) ≤ un := Int.natCast_nonneg un
            omega
      · by_cases h2 : un ≥ 2 ^ (bitSize - 1)
        · rw [if_pos ⟨hneg, h2⟩] at hok; cases hok
        · rw [if_neg (by intro hcon; exact h2 hcon.2)] at hok
          rw [if_neg (by intro hcon; exact hneg hcon.1)] at hok
          rw [if_neg hneg] at hok
          simp only [Except.ok.injEq] at hok
          subst hok
          push_neg at h2
          have h2' : (un : Int) < (2 ^ (bitSize - 1) : Nat) := by exact_mod_cast h2
          have : ((2 ^ (bitSize - 1) : Nat) : Int) = (2 : Int) ^ (bitSize - 1) := by push_cast; ring
          constructor
          · have : (0 : Int) ≤ un := Int.natCast_nonneg un
            have hpow : (0 : Int) ≤ 2 ^ (bitSize - 1) := by positivity
            omega
          · omega

/-- `ParseInt` reads the decimal rendering of an in-range value back. -/
theorem parseIntGo_roundtrip (bitSize : Nat) (hbits : bitSize ≤ 64) (hb1 : 1 ≤ bitSize)
    (x : Int) (hlo : -(2 ^ (bitSize - 1) : Int) ≤ x)
    (hhi : x ≤ (2 ^ (bitSize - 1) : Int) - 1) :
    parseIntGo bitSize (intToString x) = .ok x := by
  have hcast : ((2 ^ (bitSize - 1) : Nat) : Int) = (2 : Int) ^ (bitSize - 1) := by
    push_cast; ring
  have hhalf : 2 ^ (bitSize - 1) ≤ 2 ^ bitSize - 1 := by
    have h1 : bitSize - 1 < bitSize := by omega
    have h2 : (2 : Nat) ^ (bitSize - 1) < 2 ^ bitSize := Nat.pow_lt_pow_right (by norm_num) h1
    omega
  cases x with
  | ofNat n =>
      have hn : n ≤ 2 ^ (bitSize - 1) - 1 := by
        have h0 : (n : Int) ≤ (2 ^ (bitSize - 1) : Int) - 1 := hhi
        rw [← hcast] at h0
        have hp : 1 ≤ 2 ^ (bitSize - 1) := Nat.one_le_two_pow
        omega
      obtain ⟨c0, rest, hnc⟩ : ∃ c0 rest, natChars n = c0 :: rest := by
        rcases hnc : natChars n with _ | ⟨c0, rest⟩
        · exact absurd hnc (natChars_ne_nil n)
        · exact ⟨c0, rest, rfl⟩
      have hc0 : isDigitCh c0 = true := by
        have := natChars_all_digits n
        rw [hnc] at this
        exact this c0 (by simp)
      have hsign := ne_sign_of_digit hc0
      show parseIntGo bitSize (natToString n) = .ok n
      unfold parseIntGo
      rw [natToString_data, hnc]
      simp only
      rw [if_neg (by rintro (hcon | hcon) <;> [exact hsign.1 hcon; exact hsign.2 hcon])]
      rw [parseUintGo_roundtrip bitSize hbits n (by omega)]
      simp only
      rw [if_neg (by
        rintro ⟨-, hcon⟩
        omega)]
      rw [if_neg (by
        rintro ⟨hcon, -⟩
        exact hsign.2 hcon)]
      rw [if_neg hsign.2]
  | negSucc m =>
      have hm : m + 1 ≤ 2 ^ (bitSize - 1) := by
        have h0 : -(2 ^ (bitSize - 1) : Int) ≤ Int.negSucc m := hlo
        rw [Int.negSucc_eq, ← hcast] at h0
        omega
      show parseIntGo bitSize (String.mk ('-' :: natChars (m + 1))) = .ok (Int.negSucc m)
      have hpu : parseUintGo bitSize (natToString (m + 1)) = .ok (m + 1) :=
        parseUintGo_roundtrip bitSize hbits (m + 1) (le_trans hm hhalf)
      have hgt : ¬ (m + 1 > 2 ^ (bitSize - 1)) := by omega
      unfold parseIntGo
      rw [show (String.mk ('-' :: natChars (m + 1))).data = '-' :: natChars (m + 1) from rfl]
      simp only
      rw [show (String.mk (natChars (m + 1)) : String) = natToString (m + 1) from rfl]
      simp [hpu, hgt, Int.negSucc_eq]

theorem string_data_append (a b : String) : (a ++ b).data = a.data ++ b.data := by
  cases a; cases b; rfl

theorem nat_or32_of_digit {t : Nat} (h1 : 48 ≤ t) (h2 : t ≤ 57) : t ||| 32 = t := by
  interval_cases t <;> decide

theorem goLower_digit {c : Char} (h : isDigitCh c = true) : goLower c = c := by
  obtain ⟨h1, h2⟩ := (isDigitCh_iff c).mp h
  unfold goLower
  rw [nat_or32_of_digit h1 h2, Char.ofNat_toNat]

theorem span_all_of (p : Char → Bool) : ∀ cs : List Char, (∀ c ∈ cs, p c = true) →
    List.span p cs = (cs, []) := by
  intro cs
  induction cs with
  | nil => intro _; rfl
  | cons c tl ih =>
      intro hx
      have hc := hx c (by simp)
      have ihh := ih (fun d hd => hx d (by simp [hd]))
      rw [List.span_eq_take_drop] at ihh ⊢
      rw [Prod.mk.injEq] at ihh ⊢
      exact ⟨by rw [List.takeWhile_cons, if_pos hc, ihh.1],
             by rw [List.dropWhile_cons, if_pos hc, ihh.2]⟩

theorem span_stop_of (p : Char → Bool) (y : Char) (ys : List Char) (hy : p y = false) :
    ∀ xs : List Char, (∀ c ∈ xs, p c = true) →
      List.span p (xs ++ y :: ys) = (xs, y :: ys) := by
  intro xs
  induction xs with
  | nil =>
      intro _
      rw [List.span_eq_take_drop, List.nil_append, Prod.mk.injEq]
      exact ⟨by rw [List.takeWhile_cons, if_neg (by simp [hy])],
             by rw [List.dropWhile_cons, if_neg (by simp [hy])]⟩
  | cons c tl ih =>
      intro hx
      have hc := hx c (by simp)
      have ihh := ih (fun d hd => hx d (by simp [hd]))
      rw [List.span_eq_take_drop] at ihh ⊢
      rw [Prod.mk.injEq] at ihh ⊢
      exact ⟨by rw [List.cons_append, List.takeWhile_cons, if_pos hc, ihh.1],
             by rw [List.cons_append, List.dropWhile_cons, if_pos hc, ihh.2]⟩

theorem map_goLower_ne_special {c : Char} (rest : List Char) (h : isDigitCh c = true) :
    ¬ ((c :: rest).map goLower = ['i', 'n', 'f'] ∨
       (c :: rest).map goLower = ['i', 'n', 'f', 'i', 'n', 'i', 't', 'y']) ∧
    ¬ (c :: rest).map goLower = ['n', 'a', 'n'] := by
  obtain ⟨-, h2⟩ := (isDigitCh_iff c).mp h
  have hg : goLower c = c := goLower_digit h
  constructor
  · rintro (hcon | hcon) <;>
    · rw [List.map_cons, hg, List.cons.injEq] at hcon
      rw [hcon.1] at h2
      exact absurd h2 (by decide)
  · intro hcon
    rw [List.map_cons, hg, List.cons.injEq] at hcon
    rw [hcon.1] at h2
    exact absurd h2 (by decide)

/-- `stripSign` of an integer rendering splits off the sign and keeps the
magnitude digits. -/
theorem stripSign_int (m : Int) (t : List Char) :
    stripSign ((intToString m).data ++ t) = (decide (m < 0), natChars m.natAbs ++ t) := by
  cases m with
  | ofNat n =>
      obtain ⟨c0, rest, hnc⟩ : ∃ c0 rest, natChars n = c0 :: rest := by
        rcases h : natChars n with _ | ⟨c0, rest⟩
        · exact absurd h (natChars_ne_nil n)
        · exact ⟨c0, rest, rfl⟩
      have hc0 : isDigitCh c0 = true := natChars_all_digits n c0 (by rw [hnc]; simp)
      have hs := ne_sign_of_digit hc0
      show stripSign (natChars n ++ t) = _
      rw [hnc, List.cons_append, stripSign, if_neg hs.1, if_neg hs.2, ← List.cons_append, ← hnc,
        decide_eq_false (by exact not_lt.mpr (Int.ofNat_nonneg n))]
      rfl
  | negSucc k =>
      show stripSign ('-' :: (natChars (k + 1) ++ t)) = _
      rw [stripSign, if_neg (by decide), if_pos rfl,
        decide_eq_true (Int.negSucc_lt_zero k)]
      rfl

/-- `stripExpSign` of an integer rendering splits off the sign factor. -/
theorem stripExpSign_int (m : Int) :
    stripExpSign (intToString m).data = (if m < 0 then (-1 : Int) else 1, natChars m.natAbs) := by
  cases m with
  | ofNat n =>
      obtain ⟨c0, rest, hnc⟩ : ∃ c0 rest, natChars n = c0 :: rest := by
        rcases h : natChars n with _ | ⟨c0, rest⟩
        · exact absurd h (natChars_ne_nil n)
        · exact ⟨c0, rest, rfl⟩
      have hc0 : isDigitCh c0 = true := natChars_all_digits n c0 (by rw [hnc]; simp)
      have hs := ne_sign_of_digit hc0
      show stripExpSign (natChars n) = _
      rw [hnc, stripExpSign, if_neg hs.1, if_neg hs.2, ← hnc,
        if_neg (by exact not_lt.mpr (Int.ofNat_nonneg n))]
      rfl
  | negSucc k =>
      show stripExpSign ('-' :: natChars (k + 1)) = _
      rw [stripExpSign, if_neg (by decide), if_pos rfl, if_pos (Int.negSucc_lt_zero k)]
      rfl

theorem mkSign_natAbs (m : Int) : mkSign (decide (m < 0)) m.natAbs = m := by
  cases m with
  | ofNat n =>
      rw [decide_eq_false (by exact not_lt.mpr (Int.ofNat_nonneg n))]
      simp [mkSign]
  | negSucc k =>
      rw [decide_eq_true (Int.negSucc_lt_zero k)]
      show mkSign true (k + 1) = Int.negSucc k
      have hm : mkSign true (k + 1) = -((k + 1 : Nat) : Int) := by
        unfold mkSign
        rw [if_pos rfl]
      rw [hm, Int.negSucc_eq]
      push_cast
      ring

theorem esign_mul_natAbs (m : Int) : (if m < 0 then (-1 : Int) else 1) * m.natAbs = m := by
  cases m with
  | ofNat n =>
      rw [if_neg (by exact not_lt.mpr (Int.ofNat_nonneg n))]
      simp
  | negSucc k =>
      rw [if_pos (Int.negSucc_lt_zero k)]
      show (-1 : Int) * ((k + 1 : Nat) : Int) = Int.negSucc k
      rw [Int.negSucc_eq]
      push_cast
      ring

/-- `ParseFloat` on a signed run of decimal digits. -/
theorem parseFloat_digits (s : String) (neg : Bool) (n : Nat)
    (hsign : stripSign s.data = (neg, natChars n)) :
    parseFloatGo s = .ok (.fin (mkSign neg n) 0) := by
  obtain ⟨c0, rest, hnc⟩ : ∃ c0 rest, natChars n = c0 :: rest := by
    rcases h : natChars n with _ | ⟨c0, rest⟩
    · exact absurd h (natChars_ne_nil n)
    · exact ⟨c0, rest, rfl⟩
  have hall := natChars_all_digits n
  have hc0 : isDigitCh c0 = true := hall c0 (by rw [hnc]; simp)
  have hspec := map_goLower_ne_special rest hc0
  unfold parseFloatGo
  rw [hsign]
  simp only
  rw [hnc, if_neg hspec.1, if_neg hspec.2, ← hnc,
    span_all_of isDigitCh (natChars n) hall]
  simp only [fracPart]
  rw [if_neg (by rintro ⟨h1, -⟩; exact natChars_ne_nil n h1)]
  simp [decValAcc_natChars]

/-- `ParseFloat` on a signed digit run with an `e`-exponent suffix. -/
theorem parseFloat_digits_exp (s : String) (neg : Bool) (n : Nat) (esign : Int) (j : Nat)
    (esuf : List Char)
    (hsign : stripSign s.data = (neg, natChars n ++ 'e' :: esuf))
    (hexp : stripExpSign esuf = (esign, natChars j)) :
    parseFloatGo s = .ok (.fin (mkSign neg n) (esign * j)) := by
  obtain ⟨c0, rest, hnc⟩ : ∃ c0 rest, natChars n = c0 :: rest := by
    rcases h : natChars n with _ | ⟨c0, rest⟩
    · exact absurd h (natChars_ne_nil n)
    · exact ⟨c0, rest, rfl⟩
  have hall := natChars_all_digits n
  have hc0 : isDigitCh c0 = true := hall c0 (by rw [hnc]; simp)
  have hspec := map_goLower_ne_special (rest ++ 'e' :: esuf) hc0
  unfold parseFloatGo
  rw [hsign]
  simp only
  rw [hnc, List.cons_append, if_neg hspec.1, if_neg hspec.2, ← List.cons_append, ← hnc,
    span_stop_of isDigitCh 'e' esuf (by decide) (natChars n) hall]
  simp only [fracPart]
  rw [if_neg (by decide : ¬ ('e' = '.'))]
  rw [if_neg (by rintro ⟨h1, -⟩; exact natChars_ne_nil n h1)]
  simp only [hexp]
  rw [if_pos (Or.inl trivial)]
  rw [span_all_of isDigitCh (natChars j) (natChars_all_digits j)]
  rw [if_neg (by rintro (h1 | h1); exacts [natChars_ne_nil j h1, h1 rfl])]
  simp [decValAcc_natChars]

theorem formatFloat_fin_data (m e : Int) (he : ¬ e = 0) :
    (formatFloatGo (.fin m e)).data = (intToString m).data ++ 'e' :: (intToString e).data := by
  rw [formatFloatGo, if_neg he, string_data_append, string_data_append, List.append_assoc]
  rfl

/-- Round trip of the float model: formatting then parsing returns the
same value, structurally. -/
theorem parseFloat_format_roundtrip (f : FVal) : parseFloatGo (formatFloatGo f) = .ok f := by
  cases f with
  | inf neg => cases neg <;> rfl
  | nan => rfl
  | fin m e =>
      by_cases he : e = 0
      · subst he
        have hfmt : formatFloatGo (.fin m 0) = intToString m := by
          rw [formatFloatGo, if_pos rfl]
        rw [hfmt]
        have hs := stripSign_int m []
        rw [List.append_nil, List.append_nil] at hs
        rw [parseFloat_digits _ _ _ hs, mkSign_natAbs]
      · have hs := stripSign_int m ('e' :: (intToString e).data)
        rw [← formatFloat_fin_data m e he] at hs
        rw [parseFloat_digits_exp _ _ _ _ _ _ hs (stripExpSign_int e), mkSign_natAbs,
          esign_mul_natAbs]

theorem string_mk_data (s : String) : String.mk s.data = s := by
  cases s
  rfl

theorem mod_pow_succ_lsb (n p : Nat) : n % 10 ^ (p + 1) = (n / 10 % 10 ^ p) * 10 + n % 10 := by
  rw [pow_succ, Nat.mul_comm (10 ^ p) 10, Nat.mod_mul]
  ring

theorem padDigits_length (p : Nat) : ∀ n, (padDigits p n).length = p := by
  induction p with
  | zero => intro n; rfl
  | succ p ih => intro n; simp [padDigits, ih]

theorem padDigits_digits (p : Nat) : ∀ n, ∀ c ∈ padDigits p n, isDigitCh c = true := by
  induction p with
  | zero => intro n c hc; simp [padDigits] at hc
  | succ p ih =>
      intro n c hc
      simp only [padDigits, List.mem_append, List.mem_singleton] at hc
      rcases hc with hc | hc
      · exact ih _ c hc
      · subst hc
        exact isDigitCh_digitChar (Nat.mod_lt _ (by norm_num))

theorem decValAcc_padDigits (p : Nat) :
    ∀ n acc, decValAcc acc (padDigits p n) = acc * 10 ^ p + n % 10 ^ p := by
  induction p with
  | zero => intro n acc; simp [padDigits, decValAcc_nil, Nat.mod_one]
  | succ p ih =>
      intro n acc
      rw [padDigits, decValAcc_append, ih, decValAcc_cons, decValAcc_nil,
        digitToNat_digitChar (Nat.mod_lt _ (by norm_num)), mod_pow_succ_lsb]
      ring

/-- `fmtFrac` when the fraction digits are all zero: nothing is printed. -/
theorem fmtFracAux_zero (p : Nat) : ∀ v, v % 10 ^ p = 0 →
    fmtFracAux p v false [] = ([], v / 10 ^ p) := by
  induction p with
  | zero => intro v _; simp [fmtFracAux]
  | succ p ih =>
      intro v hv
      have hdvd : 10 ^ (p + 1) ∣ v := Nat.dvd_of_mod_eq_zero hv
      obtain ⟨w, hw⟩ := hdvd
      have h10 : v % 10 = 0 := by
        rw [hw, pow_succ, Nat.mul_comm (10 ^ p) 10, Nat.mul_assoc]
        exact Nat.mul_mod_right 10 _
      have hdiv : v / 10 = 10 ^ p * w := by
        rw [hw, pow_succ]
        rw [show 10 ^ p * 10 * w = 10 ^ p * w * 10 from by ring]
        exact Nat.mul_div_cancel _ (by norm_num)
      have hv' : (v / 10) % 10 ^ p = 0 := by
        rw [hdiv]
        exact Nat.mul_mod_right _ _
      rw [fmtFracAux]
      simp only [h10]
      rw [show (false || decide (¬ (0 : Nat) = 0)) = false from by simp]
      rw [if_neg (by simp : ¬ false = true), ih (v / 10) hv',
        Nat.div_div_eq_div_mul, ← pow_succ']

/-- `fmtFrac` once a significant digit has been seen: every remaining
digit is printed, zero-padded. -/
theorem fmtFracAux_active (p : Nat) :
    ∀ v acc, fmtFracAux p v true acc = ('.' :: (padDigits p v ++ acc), v / 10 ^ p) := by
  induction p with
  | zero => intro v acc; simp [fmtFracAux, padDigits]
  | succ p ih =>
      intro v acc
      rw [fmtFracAux]
      simp only [Bool.true_or]
      rw [if_pos trivial, ih, padDigits]
      rw [Nat.div_div_eq_div_mul, ← pow_succ']
      simp [List.append_assoc]

/-- `fmtFrac` with a nonzero fraction: a dot and the significant fraction
digits, trailing zeros stripped. -/
theorem fmtFracAux_main (p : Nat) : ∀ v, v % 10 ^ p ≠ 0 →
    ∃ ds : List Char, fmtFracAux p v false [] = ('.' :: ds, v / 10 ^ p) ∧ ds ≠ [] ∧
      (∀ c ∈ ds, isDigitCh c = true) ∧ ds.length ≤ p ∧
      decValAcc 0 ds * 10 ^ (p - ds.length) = v % 10 ^ p ∧
      decValAcc 0 ds < 10 ^ ds.length ∧ 0 < decValAcc 0 ds := by
  induction p with
  | zero => intro v hv; exact absurd (Nat.mod_one v) hv
  | succ p ih =>
      intro v hv
      by_cases h10 : v % 10 = 0
      · have hv' : (v / 10) % 10 ^ p ≠ 0 := by
          intro hcon
          apply hv
          rw [mod_pow_succ_lsb, hcon, h10]
        obtain ⟨ds, hfmt, hne, hdig, hlen, hval, hlt, hpos⟩ := ih (v / 10) hv'
        refine ⟨ds, ?_, hne, hdig, by omega, ?_, hlt, hpos⟩
        · rw [fmtFracAux]
          simp only [h10]
          rw [show (false || decide (¬ (0 : Nat) = 0)) = false from by simp]
          rw [if_neg (by simp : ¬ false = true), hfmt,
            Nat.div_div_eq_div_mul, ← pow_succ']
        · rw [mod_pow_succ_lsb, h10]
          have hstep : p + 1 - ds.length = (p - ds.length) + 1 := by omega
          rw [hstep, pow_succ, ← hval]
          ring
      · have hdd : digitToNat (digitChar (v % 10)) = v % 10 :=
          digitToNat_digitChar (Nat.mod_lt _ (by norm_num))
        have hval0 : decValAcc 0 (padDigits p (v / 10) ++ [digitChar (v % 10)]) =
            (v / 10 % 10 ^ p) * 10 + v % 10 := by
          rw [decValAcc_append, decValAcc_padDigits, decValAcc_cons, decValAcc_nil, hdd]
          ring
        have hprr : (false || decide (¬ v % 10 = 0)) = true := by
          simp only [Bool.false_or, decide_eq_true_eq]
          exact h10
        refine ⟨padDigits p (v / 10) ++ [digitChar (v % 10)], ?_, by simp, ?_, ?_, ?_, ?_, ?_⟩
        · rw [fmtFracAux]
          rw [hprr, if_pos rfl, fmtFracAux_active, Nat.div_div_eq_div_mul, ← pow_succ']
        · intro c hc
          rcases List.mem_append.mp hc with hc | hc
          · exact padDigits_digits p (v / 10) c hc
          · rw [List.mem_singleton.mp hc]
            exact isDigitCh_digitChar (Nat.mod_lt _ (by norm_num))
        · simp [padDigits_length]
        · rw [hval0, mod_pow_succ_lsb]
          simp [padDigits_length]
        · rw [hval0]
          simp only [List.length_append, padDigits_length, List.length_singleton]
          have hm : v / 10 % 10 ^ p < 10 ^ p := Nat.mod_lt _ (pow_pos (by norm_num) p)
          have hd : v % 10 < 10 := Nat.mod_lt _ (by norm_num)
          calc (v / 10 % 10 ^ p) * 10 + v % 10 < (v / 10 % 10 ^ p) * 10 + 10 := by omega
            _ ≤ 10 ^ p * 10 := by nlinarith
            _ = 10 ^ (p + 1) := (pow_succ 10 p).symm
        · rw [hval0]
          omega

/-- The fraction printer, uniformly: the printed digit list, its value
relation to `v`'s fraction, and the stripped integer part. -/
theorem fmtFracAux_spec (p v : Nat) :
    ∃ fds : List Char,
      fmtFracAux p v false [] = ((if fds = [] then [] else '.' :: fds), v / 10 ^ p) ∧
      (∀ c ∈ fds, isDigitCh c = true) ∧ fds.length ≤ p ∧
      decValAcc 0 fds * 10 ^ (p - fds.length) = v % 10 ^ p ∧
      decValAcc 0 fds < 10 ^ fds.length ∧ (fds ≠ [] → 0 < decValAcc 0 fds) := by
  by_cases h : v % 10 ^ p = 0
  · refine ⟨[], ?_, by simp, by simp, ?_, by simp [decValAcc_nil], by simp⟩
    · rw [if_pos rfl]
      exact fmtFracAux_zero p v h
    · rw [decValAcc_nil, h]
      ring
  · obtain ⟨ds, h1, h2, h3, h4, h5, h6, h7⟩ := fmtFracAux_main p v h
    exact ⟨ds, by rw [if_neg h2]; exact h1, h3, h4, h5, h6, fun _ => h7⟩

/-- `time.leadingInt` on a digit run followed by a non-digit (or the end)
accumulates the run's decimal value, when that value does not overflow. -/
theorem leadingInt_digits : ∀ (ds rest : List Char) (acc : Nat),
    (∀ c ∈ ds, isDigitCh c = true) →
    (rest = [] ∨ ∃ c rs, rest = c :: rs ∧ isDigitCh c = false) →
    decValAcc acc ds ≤ twoPow63 →
    leadingInt (ds ++ rest) acc = .ok (decValAcc acc ds, rest) := by
  intro ds
  induction ds with
  | nil =>
      intro rest acc hds hrest hle
      rcases hrest with rfl | ⟨c, rs, rfl, hc⟩
      · rfl
      · rw [List.nil_append, leadingInt, if_pos (by simp [hc])]
        rfl
  | cons c cs ih =>
      intro rest acc hds hrest hle
      have hc : isDigitCh c = true := hds c (by simp)
      have hstep : decValAcc acc (c :: cs) = decValAcc (acc * 10 + digitToNat c) cs :=
        decValAcc_cons acc c cs
      rw [hstep] at hle
      have hbound := le_decValAcc cs (acc * 10 + digitToNat c)
      have hp : 1 ≤ 10 ^ cs.length := Nat.one_le_pow _ _ (by norm_num)
      have h1 : acc * 10 + digitToNat c ≤ twoPow63 := by
        calc acc * 10 + digitToNat c = (acc * 10 + digitToNat c) * 1 := by ring
          _ ≤ (acc * 10 + digitToNat c) * 10 ^ cs.length := Nat.mul_le_mul_left _ hp
          _ ≤ decValAcc (acc * 10 + digitToNat c) cs := hbound
          _ ≤ twoPow63 := hle
      have hcut : ¬ (acc > twoPow63 / 10) := by
        have hx : acc * 10 ≤ twoPow63 := le_trans (Nat.le_add_right _ _) h1
        omega
      rw [List.cons_append, leadingInt]
      rw [if_neg (by simp [hc]), if_neg hcut]
      rw [if_neg (by omega : ¬ (acc * 10 + digitToNat c > twoPow63))]
      rw [hstep]
      exact ih rest (acc * 10 + digitToNat c) (fun d hd => hds d (by simp [hd])) hrest hle

/-- `time.leadingFraction` on a digit run followed by a non-digit (or the
end), when the run's value is small: accumulates the value and multiplies
the scale by ten per digit. -/
theorem leadingFraction_digits : ∀ (ds rest : List Char) (x scale : Nat),
    (∀ c ∈ ds, isDigitCh c = true) →
    (rest = [] ∨ ∃ c rs, rest = c :: rs ∧ isDigitCh c = false) →
    decValAcc x ds ≤ 1000000000 →
    leadingFraction (ds ++ rest) x scale false = (decValAcc x ds, scale * 10 ^ ds.length, rest) := by
  intro ds
  induction ds with
  | nil =>
      intro rest x scale hds hrest hle
      rcases hrest with rfl | ⟨c, rs, rfl, hc⟩
      · simp [leadingFraction, decValAcc_nil]
      · rw [List.nil_append, leadingFraction, if_pos (by simp [hc])]
        simp [decValAcc_nil]
  | cons c cs ih =>
      intro rest x scale hds hrest hle
      have hc : isDigitCh c = true := hds c (by simp)
      have hstep : decValAcc x (c :: cs) = decValAcc (x * 10 + digitToNat c) cs :=
        decValAcc_cons x c cs
      rw [hstep] at hle
      have hbound := le_decValAcc cs (x * 10 + digitToNat c)
      have hp : 1 ≤ 10 ^ cs.length := Nat.one_le_pow _ _ (by norm_num)
      have h1 : x * 10 + digitToNat c ≤ 1000000000 := by
        calc x * 10 + digitToNat c = (x * 10 + digitToNat c) * 1 := by ring
          _ ≤ (x * 10 + digitToNat c) * 10 ^ cs.length := Nat.mul_le_mul_left _ hp
          _ ≤ decValAcc (x * 10 + digitToNat c) cs := hbound
          _ ≤ 1000000000 := hle
      have hcut : ¬ (x > (twoPow63 - 1) / 10) := by
        have hh : (1000000000 : Nat) ≤ (twoPow63 - 1) / 10 := by norm_num [twoPow63]
        omega
      have hy : ¬ (x * 10 + digitToNat c > twoPow63) := by
        have hh : (1000000000 : Nat) ≤ twoPow63 := by norm_num [twoPow63]
        omega
      rw [List.cons_append, leadingFraction]
      rw [if_neg (by simp [hc]), if_neg (by simp : ¬ false = true), if_neg hcut, if_neg hy]
      rw [hstep, ih rest (x * 10 + digitToNat c) (scale * 10)
        (fun d hd => hds d (by simp [hd])) hrest hle]
      rw [Prod.mk.injEq]
      refine ⟨rfl, ?_⟩
      rw [Prod.mk.injEq]
      refine ⟨?_, rfl⟩
      rw [List.length_cons, pow_succ]
      ring

theorem parseDurationLoop_nil (fuel d : Nat) (orig : String) :
    parseDurationLoop fuel d [] orig = .ok d := by
  cases fuel <;> rfl

/-- One fraction-free `value ++ unit` component of the duration grammar:
the loop consumes it and adds `v * unit`. -/
theorem parseDurationLoop_comp_plain (fl d v : Nat) (usd : List Char) (unit : Nat)
    (rest : List Char) (orig : String)
    (hunit : unitNanos (String.mk usd) = some unit) (hupos : 0 < unit)
    (husne : usd ≠ [])
    (hus : ∀ c ∈ usd, ¬ (c = '.' ∨ isDigitCh c = true))
    (hrest : rest = [] ∨ ∃ c rs, rest = c :: rs ∧ isDigitCh c = true)
    (hv : v * unit ≤ twoPow63)
    (htot : d + v * unit ≤ twoPow63) :
    parseDurationLoop (fl + 1) d (natChars v ++ (usd ++ rest)) orig =
    parseDurationLoop fl (d + v * unit) rest orig := by
  obtain ⟨cu, ru, hcu⟩ : ∃ cu ru, usd = cu :: ru := by
    rcases h : usd with _ | ⟨cu, ru⟩
    · exact absurd h husne
    · exact ⟨cu, ru, rfl⟩
  have hcu' : ¬ (cu = '.' ∨ isDigitCh cu = true) := hus cu (by rw [hcu]; simp)
  have hcuf : isDigitCh cu = false := Bool.eq_false_iff.mpr (fun h => hcu' (Or.inr h))
  have hvle : v ≤ twoPow63 := le_trans (Nat.le_mul_of_pos_right v hupos) hv
  have hli : leadingInt (natChars v ++ (usd ++ rest)) 0 = .ok (v, usd ++ rest) := by
    have h1 := leadingInt_digits (natChars v) (usd ++ rest) 0 (natChars_all_digits v)
      (Or.inr ⟨cu, ru ++ rest, by rw [hcu, List.cons_append], hcuf⟩)
      (by rw [decValAcc_natChars]; simpa using hvle)
    rw [decValAcc_natChars] at h1
    simpa using h1
  have hspan : List.span (fun ch => ¬ (ch = '.' ∨ isDigitCh ch)) (usd ++ rest) =
      (usd, rest) := by
    rcases hrest with rfl | ⟨cr, rs, rfl, hcr⟩
    · rw [List.append_nil]
      exact span_all_of _ usd (fun c hc => decide_eq_true (hus c hc))
    · exact span_stop_of _ cr rs (decide_eq_false (fun hcon => hcon (Or.inr hcr)))
        usd (fun c hc => decide_eq_true (hus c hc))
  obtain ⟨c0, r0, hnc⟩ : ∃ c0 r0, natChars v = c0 :: r0 := by
    rcases h : natChars v with _ | ⟨c0, r0⟩
    · exact absurd h (natChars_ne_nil v)
    · exact ⟨c0, r0, rfl⟩
  have hc0 : isDigitCh c0 = true := natChars_all_digits v c0 (by rw [hnc]; simp)
  rw [show natChars v ++ (usd ++ rest) = c0 :: (r0 ++ (usd ++ rest)) from by
    rw [hnc, List.cons_append]]
  rw [parseDurationLoop]
  rw [if_neg (fun hcon => hcon (Or.inr hc0))]
  rw [show c0 :: (r0 ++ (usd ++ rest)) = natChars v ++ (usd ++ rest) from by
    rw [hnc, List.cons_append]]
  rw [hli]
  simp only []
  rw [hcu, List.cons_append]
  simp only []
  rw [if_neg (fun h => hcu' (Or.inl h))]
  simp only []
  have hpre : (cu :: (ru ++ rest)).length ≠ (natChars v ++ cu :: (ru ++ rest)).length := by
    rw [List.length_append, hnc]
    simp
  rw [if_neg (fun hcon => hcon.1 hpre)]
  have hspan' : List.span (fun ch => ¬ (ch = '.' ∨ isDigitCh ch)) (cu :: (ru ++ rest)) =
      (cu :: ru, rest) := by
    rw [hcu, List.cons_append] at hspan
    exact hspan
  rw [hspan']
  simp only []
  rw [if_neg (by simp : ¬ (cu :: ru = []))]
  rw [show (String.mk (cu :: ru) : String) = String.mk usd from by rw [hcu], hunit]
  simp only []
  rw [if_neg (not_lt.mpr ((Nat.le_div_iff_mul_le hupos).mpr hv))]
  rw [if_neg (by omega : ¬ ((0 : Nat) > 0))]
  rw [if_neg (fun hcon => (by omega : ¬ ((0 : Nat) > 0)) hcon.1)]
  rw [if_neg (by omega : ¬ (d + v * unit > twoPow63))]

/-- One `value.fraction ++ unit` component of the duration grammar: the
loop consumes it and adds `v * unit + f * unit / 10 ^ |fraction|`. -/
theorem parseDurationLoop_comp_frac (fl d v : Nat) (fds : List Char) (usd : List Char)
    (unit : Nat) (rest : List Char) (orig : String)
    (hunit : unitNanos (String.mk usd) = some unit) (hupos : 0 < unit)
    (husne : usd ≠ [])
    (hus : ∀ c ∈ usd, ¬ (c = '.' ∨ isDigitCh c = true))
    (hrest : rest = [] ∨ ∃ c rs, rest = c :: rs ∧ isDigitCh c = true)
    (hfd : ∀ c ∈ fds, isDigitCh c = true)
    (hfsmall : decValAcc 0 fds ≤ 1000000000)
    (hfpos : 0 < decValAcc 0 fds)
    (hv : v * unit ≤ twoPow63)
    (htot : d + (v * unit + decValAcc 0 fds * unit / 10 ^ fds.length) ≤ twoPow63) :
    parseDurationLoop (fl + 1) d (natChars v ++ ('.' :: (fds ++ (usd ++ rest)))) orig =
    parseDurationLoop fl (d + (v * unit + decValAcc 0 fds * unit / 10 ^ fds.length))
      rest orig := by
  obtain ⟨cu, ru, hcu⟩ : ∃ cu ru, usd = cu :: ru := by
    rcases h : usd with _ | ⟨cu, ru⟩
    · exact absurd h husne
    · exact ⟨cu, ru, rfl⟩
  have hcu' : ¬ (cu = '.' ∨ isDigitCh cu = true) := hus cu (by rw [hcu]; simp)
  have hcuf : isDigitCh cu = false := Bool.eq_false_iff.mpr (fun h => hcu' (Or.inr h))
  have hvle : v ≤ twoPow63 := le_trans (Nat.le_mul_of_pos_right v hupos) hv
  have hli : leadingInt (natChars v ++ ('.' :: (fds ++ (usd ++ rest)))) 0 =
      .ok (v, '.' :: (fds ++ (usd ++ rest))) := by
    have h1 := leadingInt_digits (natChars v) ('.' :: (fds ++ (usd ++ rest))) 0
      (natChars_all_digits v)
      (Or.inr ⟨'.', fds ++ (usd ++ rest), rfl, by decide⟩)
      (by rw [decValAcc_natChars]; simpa using hvle)
    rw [decValAcc_natChars] at h1
    simpa using h1
  have hlf : leadingFraction (fds ++ (usd ++ rest)) 0 1 false =
      (decValAcc 0 fds, 1 * 10 ^ fds.length, usd ++ rest) := by
    refine leadingFraction_digits fds (usd ++ rest) 0 1 hfd
      (Or.inr ⟨cu, ru ++ rest, by rw [hcu, List.cons_append], hcuf⟩) hfsmall
  have hspan : List.span (fun ch => ¬ (ch = '.' ∨ isDigitCh ch)) (usd ++ rest) =
      (usd, rest) := by
    rcases hrest with rfl | ⟨cr, rs, rfl, hcr⟩
    · rw [List.append_nil]
      exact span_all_of _ usd (fun c hc => decide_eq_true (hus c hc))
    · exact span_stop_of _ cr rs (decide_eq_false (fun hcon => hcon (Or.inr hcr)))
        usd (fun c hc => decide_eq_true (hus c hc))
  obtain ⟨c0, r0, hnc⟩ : ∃ c0 r0, natChars v = c0 :: r0 := by
    rcases h : natChars v with _ | ⟨c0, r0⟩
    · exact absurd h (natChars_ne_nil v)
    · exact ⟨c0, r0, rfl⟩
  have hc0 : isDigitCh c0 = true := natChars_all_digits v c0 (by rw [hnc]; simp)
  rw [show natChars v ++ ('.' :: (fds ++ (usd ++ rest))) =
      c0 :: (r0 ++ ('.' :: (fds ++ (usd ++ rest)))) from by rw [hnc, List.cons_append]]
  rw [parseDurationLoop]
  rw [if_neg (fun hcon => hcon (Or.inr hc0))]
  rw [show c0 :: (r0 ++ ('.' :: (fds ++ (usd ++ rest)))) =
      natChars v ++ ('.' :: (fds ++ (usd ++ rest))) from by rw [hnc, List.cons_append]]
  rw [hli]
  simp only []
  rw [if_pos trivial, hlf]
  simp only []
  have hpre : ('.' :: (fds ++ (usd ++ rest))).length ≠
      (natChars v ++ '.' :: (fds ++ (usd ++ rest))).length := by
    rw [List.length_append, hnc]
    simp
  rw [if_neg (fun hcon => hcon.1 hpre)]
  rw [hspan]
  simp only []
  rw [if_neg husne]
  rw [hunit]
  simp only []
  rw [if_neg (not_lt.mpr ((Nat.le_div_iff_mul_le hupos).mpr hv))]
  rw [if_pos hfpos, one_mul]
  rw [if_neg (fun hcon =>
    (by omega : ¬ (v * unit + decValAcc 0 fds * unit / 10 ^ fds.length > twoPow63)) hcon.2)]
  rw [if_neg (by omega :
    ¬ (d + (v * unit + decValAcc 0 fds * unit / 10 ^ fds.length) > twoPow63))]

/-- The final component of a printed duration (value, optional printed
fraction, unit), consumed by the loop to the exact nanosecond value. -/
theorem parse_lastComp (fl d v r : Nat) (fds : List Char) (usd : List Char) (unit : Nat)
    (orig : String)
    (hunit : unitNanos (String.mk usd) = some unit) (hupos : 0 < unit)
    (husne : usd ≠ []) (hus : ∀ c ∈ usd, ¬ (c = '.' ∨ isDigitCh c = true))
    (hdig : ∀ c ∈ fds, isDigitCh c = true)
    (hsmall : decValAcc 0 fds ≤ 1000000000)
    (hpos : fds ≠ [] → 0 < decValAcc 0 fds)
    (hfv : decValAcc 0 fds * unit / 10 ^ fds.length = r)
    (hv : v * unit ≤ twoPow63)
    (htot : d + (v * unit + r) ≤ twoPow63) :
    parseDurationLoop (fl + 1) d
      (natChars v ++ ((if fds = [] then [] else '.' :: fds) ++ usd)) orig =
    .ok (d + (v * unit + r)) := by
  by_cases hfd0 : fds = []
  · subst hfd0
    have hr : r = 0 := by rw [← hfv]; simp [decValAcc_nil]
    rw [if_pos rfl, List.nil_append]
    rw [show natChars v ++ usd = natChars v ++ (usd ++ []) from by
      rw [List.append_nil]]
    rw [parseDurationLoop_comp_plain fl d v usd unit [] orig hunit hupos husne hus
      (Or.inl rfl) hv (by omega)]
    rw [parseDurationLoop_nil]
    congr 1
    omega
  · rw [if_neg hfd0]
    rw [show ('.' :: fds) ++ usd = '.' :: (fds ++ (usd ++ [])) from by
      rw [List.append_nil]
      rfl]
    rw [parseDurationLoop_comp_frac fl d v fds usd unit [] orig hunit hupos husne hus
      (Or.inl rfl) hdig hsmall (hpos hfd0) hv (by rw [hfv]; exact htot)]
    rw [parseDurationLoop_nil, hfv]

/-- The duration body of a nonzero magnitude parses back to the
magnitude. -/
theorem durBody_parse (u : Nat) (h2 : u ≤ twoPow63) (fl : Nat) (orig : String) :
    parseDurationLoop (fl + 3) 0 (durBody u) orig = .ok u := by
  have h93 : (1000000000 : Nat) ≤ twoPow63 := by norm_num [twoPow63]
  by_cases hb : u < 1000000000
  · rw [durBody, if_pos hb]
    by_cases ha : u < 1000
    · rw [if_pos ha]
      rw [show natChars u ++ (['n', 's'] : List Char) =
          natChars u ++ ((if ([] : List Char) = [] then [] else '.' :: []) ++ ['n', 's'])
          from by rw [if_pos rfl, List.nil_append]]
      rw [show fl + 3 = (fl + 2) + 1 from by omega]
      rw [parse_lastComp (fl + 2) 0 u 0 [] ['n', 's'] 1 orig rfl (by norm_num) (by decide)
        (by decide) (by simp) (by simp [decValAcc_nil]) (by simp)
        (by simp [decValAcc_nil]) (by omega) (by omega)]
      congr 1
      omega
    · rw [if_neg ha]
      by_cases hbb : u < 1000000
      · rw [if_pos hbb]
        obtain ⟨fds, hfmt, hdig, hlen, hval, hlt, hpos⟩ := fmtFracAux_spec 3 u
        have e3 : (10 : Nat) ^ 3 = 1000 := by norm_num
        rw [e3] at hfmt hval
        simp only []
        rw [hfmt]
        simp only []
        have h10l : 10 ^ fds.length ≤ 1000 := by
          calc (10 : Nat) ^ fds.length ≤ 10 ^ 3 := Nat.pow_le_pow_right (by norm_num) hlen
            _ = 1000 := e3
        have hfv : decValAcc 0 fds * 1000 / 10 ^ fds.length = u % 1000 := by
          have e : (1000 : Nat) = 10 ^ (3 - fds.length) * 10 ^ fds.length := by
            rw [← pow_add, show 3 - fds.length + fds.length = 3 from by omega]
            norm_num
          conv_lhs => rw [e]
          rw [← mul_assoc, Nat.mul_div_cancel _ (pow_pos (by norm_num) _), hval]
        rw [List.append_assoc]
        rw [show fl + 3 = (fl + 2) + 1 from by omega]
        rw [parse_lastComp (fl + 2) 0 (u / 1000) (u % 1000) fds ['µ', 's'] 1000 orig rfl
          (by norm_num) (by decide) (by decide) hdig (by omega) (fun h => hpos h) hfv
          (by omega) (by omega)]
        congr 1
        omega
      · rw [if_neg hbb]
        obtain ⟨fds, hfmt, hdig, hlen, hval, hlt, hpos⟩ := fmtFracAux_spec 6 u
        have e6 : (10 : Nat) ^ 6 = 1000000 := by norm_num
        rw [e6] at hfmt hval
        simp only []
        rw [hfmt]
        simp only []
        have h10l : 10 ^ fds.length ≤ 1000000 := by
          calc (10 : Nat) ^ fds.length ≤ 10 ^ 6 := Nat.pow_le_pow_right (by norm_num) hlen
            _ = 1000000 := e6
        have hfv : decValAcc 0 fds * 1000000 / 10 ^ fds.length = u % 1000000 := by
          have e : (1000000 : Nat) = 10 ^ (6 - fds.length) * 10 ^ fds.length := by
            rw [← pow_add, show 6 - fds.length + fds.length = 6 from by omega]
            norm_num
          conv_lhs => rw [e]
          rw [← mul_assoc, Nat.mul_div_cancel _ (pow_pos (by norm_num) _), hval]
        rw [List.append_assoc]
        rw [show fl + 3 = (fl + 2) + 1 from by omega]
        rw [parse_lastComp (fl + 2) 0 (u / 1000000) (u % 1000000) fds ['m', 's'] 1000000
          orig rfl (by norm_num) (by decide) (by decide) hdig (by omega)
          (fun h => hpos h) hfv (by omega) (by omega)]
        congr 1
        omega
  · rw [durBody, if_neg hb]
    obtain ⟨fds, hfmt, hdig, hlen, hval, hlt, hpos⟩ := fmtFracAux_spec 9 u
    have e9 : (10 : Nat) ^ 9 = 1000000000 := by norm_num
    rw [e9] at hfmt hval
    simp only []
    rw [hfmt]
    simp only []
    have h10l : 10 ^ fds.length ≤ 1000000000 := by
      calc (10 : Nat) ^ fds.length ≤ 10 ^ 9 := Nat.pow_le_pow_right (by norm_num) hlen
        _ = 1000000000 := e9
    have hfv : decValAcc 0 fds * 1000000000 / 10 ^ fds.length = u % 1000000000 := by
      have e : (1000000000 : Nat) = 10 ^ (9 - fds.length) * 10 ^ fds.length := by
        rw [← pow_add, show 9 - fds.length + fds.length = 9 from by omega]
        norm_num
      conv_lhs => rw [e]
      rw [← mul_assoc, Nat.mul_div_cancel _ (pow_pos (by norm_num) _), hval]
    by_cases hu2 : u / 1000000000 / 60 > 0
    · rw [if_pos hu2]
      by_cases hhh : u / 1000000000 / 60 / 60 > 0
      · rw [if_pos hhh]
        simp only [List.append_assoc]
        obtain ⟨cm, rm, hm⟩ : ∃ cm rm, natChars (u / 1000000000 / 60 % 60) = cm :: rm := by
          rcases h : natChars (u / 1000000000 / 60 % 60) with _ | ⟨cm, rm⟩
          · exact absurd h (natChars_ne_nil _)
          · exact ⟨cm, rm, rfl⟩
        have hcm : isDigitCh cm = true := natChars_all_digits _ cm (by rw [hm]; simp)
        rw [show fl + 3 = (fl + 2) + 1 from by omega]
        rw [parseDurationLoop_comp_plain (fl + 2) 0 (u / 1000000000 / 60 / 60)
          ['h'] 3600000000000 _ orig rfl (by norm_num) (by decide) (by decide)
          (Or.inr ⟨cm, rm ++ (['m'] ++ (natChars (u / 1000000000 % 60) ++
            ((if fds = [] then [] else '.' :: fds) ++ ['s']))), by
              rw [hm]
              rfl, hcm⟩)
          (by omega) (by omega)]
        obtain ⟨cs, rs, hsd⟩ : ∃ cs rs, natChars (u / 1000000000 % 60) = cs :: rs := by
          rcases h : natChars (u / 1000000000 % 60) with _ | ⟨cs, rs⟩
          · exact absurd h (natChars_ne_nil _)
          · exact ⟨cs, rs, rfl⟩
        have hcs : isDigitCh cs = true := natChars_all_digits _ cs (by rw [hsd]; simp)
        rw [show fl + 2 = (fl + 1) + 1 from by omega]
        rw [parseDurationLoop_comp_plain (fl + 1) _ (u / 1000000000 / 60 % 60)
          ['m'] 60000000000 _ orig rfl (by norm_num) (by decide) (by decide)
          (Or.inr ⟨cs, rs ++ ((if fds = [] then [] else '.' :: fds) ++ ['s']), by
            rw [hsd]
            rfl, hcs⟩)
          (by omega) (by omega)]
        rw [parse_lastComp fl _ (u / 1000000000 % 60) (u % 1000000000) fds ['s']
          1000000000 orig rfl (by norm_num) (by decide) (by decide) hdig (by omega)
          (fun h => hpos h) hfv (by omega) (by omega)]
        congr 1
        omega
      · rw [if_neg hhh, List.nil_append]
        simp only [List.append_assoc]
        obtain ⟨cs, rs, hsd⟩ : ∃ cs rs, natChars (u / 1000000000 % 60) = cs :: rs := by
          rcases h : natChars (u / 1000000000 % 60) with _ | ⟨cs, rs⟩
          · exact absurd h (natChars_ne_nil _)
          · exact ⟨cs, rs, rfl⟩
        have hcs : isDigitCh cs = true := natChars_all_digits _ cs (by rw [hsd]; simp)
        rw [show fl + 3 = (fl + 2) + 1 from by omega]
        rw [parseDurationLoop_comp_plain (fl + 2) 0 (u / 1000000000 / 60 % 60)
          ['m'] 60000000000 _ orig rfl (by norm_num) (by decide) (by decide)
          (Or.inr ⟨cs, rs ++ ((if fds = [] then [] else '.' :: fds) ++ ['s']), by
            rw [hsd]
            rfl, hcs⟩)
          (by omega) (by omega)]
        rw [show fl + 2 = (fl + 1) + 1 from by omega]
        rw [parse_lastComp (fl + 1) _ (u / 1000000000 % 60) (u % 1000000000) fds ['s']
          1000000000 orig rfl (by norm_num) (by decide) (by decide) hdig (by omega)
          (fun h => hpos h) hfv (by omega) (by omega)]
        congr 1
        omega
    · rw [if_neg hu2, List.nil_append, List.append_assoc]
      rw [show fl + 3 = (fl + 2) + 1 from by omega]
      rw [parse_lastComp (fl + 2) 0 (u / 1000000000 % 60) (u % 1000000000) fds ['s']
        1000000000 orig rfl (by norm_num) (by decide) (by decide) hdig (by omega)
        (fun h => hpos h) hfv (by omega) (by omega)]
      congr 1
      omega

/-- The loop never returns a value above `2^63`. -/
theorem parseDurationLoop_le : ∀ (fuel d : Nat) (cs : List Char) (orig : String) (n : Nat),
    d ≤ twoPow63 → parseDurationLoop fuel d cs orig = .ok n → n ≤ twoPow63 := by
  intro fuel
  induction fuel with
  | zero =>
      intro d cs orig n hd h
      cases cs with
      | nil =>
          rw [parseDurationLoop_nil] at h
          cases h
          exact hd
      | cons c cs' => simp [parseDurationLoop] at h
  | succ fuel ih =>
      intro d cs orig n hd h
      cases cs with
      | nil =>
          rw [parseDurationLoop_nil] at h
          cases h
          exact hd
      | cons c cs' =>
          rw [parseDurationLoop] at h
          split at h
          · exact absurd h (by simp)
          rcases hli : leadingInt (c :: cs') 0 with e | ⟨v, s1⟩
          · rw [hli] at h
            exact absurd h (by simp)
          rw [hli] at h
          simp only [] at h
          rcases s1 with _ | ⟨c1, r⟩
          · simp only [] at h
            repeat' split at h
            all_goals try omega
            all_goals try (refine absurd h ?_; simp; done)
            all_goals exact ih _ _ orig n (not_lt.mp (by assumption)) h
          · simp only [] at h
            by_cases hc1 : c1 = '.'
            · rw [if_pos hc1] at h
              simp only [] at h
              repeat' split at h
              all_goals try omega
              all_goals try (refine absurd h ?_; simp; done)
              all_goals exact ih _ _ orig n (not_lt.mp (by assumption)) h
            · rw [if_neg hc1] at h
              simp only [] at h
              repeat' split at h
              all_goals try omega
              all_goals try (refine absurd h ?_; simp; done)
              all_goals exact ih _ _ orig n (not_lt.mp (by assumption)) h

/-- A successfully parsed duration is an `int64` value. -/
theorem parseDuration_bounds (s : String) (d : Int) (h : parseDuration s = .ok d) :
    -(2 ^ 63 : Int) ≤ d ∧ d ≤ 2 ^ 63 - 1 := by
  unfold parseDuration at h
  simp only [] at h
  split at h
  · cases h
    constructor <;> norm_num
  split at h
  · exact absurd h (by simp)
  split at h
  · exact absurd h (by simp)
  next n hloop =>
    have hn : n ≤ twoPow63 := parseDurationLoop_le _ 0 _ s n (by norm_num [twoPow63]) hloop
    have hn' : (n : Int) ≤ 2 ^ 63 := by
      have ht : twoPow63 = 2 ^ 63 := rfl
      rw [ht] at hn
      exact_mod_cast hn
    split at h
    · cases h
      constructor
      · exact neg_le_neg hn'
      · exact le_trans (neg_nonpos.mpr (Int.ofNat_nonneg n))
          (by norm_num : (0 : Int) ≤ 2 ^ 63 - 1)
    · split at h
      · exact absurd h (by simp)
      next hgt =>
        cases h
        have hnn : n ≤ twoPow63 - 1 := by omega
        have ht : (twoPow63 : Nat) = 2 ^ 63 := rfl
        constructor
        · exact le_trans (by norm_num : -(2 ^ 63 : Int) ≤ 0) (Int.ofNat_nonneg n)
        · have hcast : ((twoPow63 - 1 : Nat) : Int) = 2 ^ 63 - 1 := by
            rw [Nat.cast_sub (by rw [ht]; exact Nat.one_le_two_pow), ht]
            push_cast
            try ring
          rw [← hcast]
          exact_mod_cast hnn

/-- Every duration body starts with a decimal digit. -/
theorem durBody_head_digit (u : Nat) : ∃ c r, durBody u = c :: r ∧ isDigitCh c = true := by
  have key : ∀ (x : Nat) (rest : List Char),
      ∃ c r, natChars x ++ rest = c :: r ∧ isDigitCh c = true := by
    intro x rest
    obtain ⟨c0, r0, hnc⟩ : ∃ c0 r0, natChars x = c0 :: r0 := by
      rcases h : natChars x with _ | ⟨c0, r0⟩
      · exact absurd h (natChars_ne_nil x)
      · exact ⟨c0, r0, rfl⟩
    exact ⟨c0, r0 ++ rest, by rw [hnc, List.cons_append],
      natChars_all_digits x c0 (by rw [hnc]; simp)⟩
  rw [durBody]
  by_cases h1 : u < 1000000000
  · rw [if_pos h1]
    by_cases h2 : u < 1000
    · rw [if_pos h2]
      exact key u _
    · by_cases h3 : u < 1000000
      · rw [if_neg h2, if_pos h3]
        simp only [List.append_assoc]
        exact key _ _
      · rw [if_neg h2, if_neg h3]
        simp only [List.append_assoc]
        exact key _ _
  · rw [if_neg h1]
    simp only []
    by_cases hu2 : (fmtFracAux 9 u false []).2 / 60 > 0
    · rw [if_pos hu2]
      by_cases hhh : (fmtFracAux 9 u false []).2 / 60 / 60 > 0
      · rw [if_pos hhh]
        simp only [List.append_assoc]
        exact key _ _
      · rw [if_neg hhh, List.nil_append]
        simp only [List.append_assoc]
        exact key _ _
    · rw [if_neg hu2, List.nil_append]
      simp only [List.append_assoc]
      exact key _ _

/-- Every duration body has at least two characters. -/
theorem durBody_length (u : Nat) : 2 ≤ (durBody u).length := by
  have hx : ∀ x : Nat, 1 ≤ (natChars x).length :=
    fun x => List.length_pos.mpr (natChars_ne_nil x)
  rw [durBody]
  by_cases h1 : u < 1000000000
  · rw [if_pos h1]
    by_cases h2 : u < 1000
    · rw [if_pos h2]
      simp only [List.length_append, List.length_cons, List.length_nil]
      have := hx u
      omega
    · by_cases h3 : u < 1000000
      · rw [if_neg h2, if_pos h3]
        simp only [List.length_append, List.length_cons, List.length_nil]
        have := hx ((fmtFracAux 3 u false []).2)
        omega
      · rw [if_neg h2, if_neg h3]
        simp only [List.length_append, List.length_cons, List.length_nil]
        have := hx ((fmtFracAux 6 u false []).2)
        omega
  · rw [if_neg h1]
    simp only [List.length_append, List.length_cons, List.length_nil]
    have := hx ((fmtFracAux 9 u false []).2 % 60)
    omega

/-- Formatting then parsing a duration returns the same `int64` value. -/
theorem parseDuration_roundtrip (d : Int) (hlo : -(2 ^ 63 : Int) ≤ d)
    (hhi : d ≤ 2 ^ 63 - 1) : parseDuration (formatDuration d) = .ok d := by
  have h2 : twoPow63 = 9223372036854775808 := by norm_num [twoPow63]
  by_cases hz : d = 0
  · subst hz
    rfl
  · cases d with
    | ofNat n =>
        have hn0 : n ≠ 0 := fun hcon => hz (by rw [hcon]; rfl)
        have h1' : n ≤ 9223372036854775807 := by
          have hx := hhi
          norm_num at hx
          exact_mod_cast hx
        have hbound : n ≤ twoPow63 := by omega
        obtain ⟨ch, cr, hch, hchd⟩ := durBody_head_digit n
        have hsign := ne_sign_of_digit hchd
        have hlen := durBody_length n
        have hne : durBody n ≠ ['0'] := by
          intro hcon
          rw [hcon] at hlen
          simp at hlen
        have hnn : durBody n ≠ [] := by
          intro hcon
          rw [hcon] at hlen
          simp at hlen
        have hfmt : formatDuration (Int.ofNat n) = String.mk (durBody n) := by
          unfold formatDuration
          simp only []
          rw [if_neg (show ¬ ((Int.ofNat n).natAbs = 0) from fun hcon => hn0 hcon)]
          rw [decide_eq_false (show ¬ (Int.ofNat n < 0) from not_lt.mpr (Int.ofNat_nonneg n))]
          rw [if_neg (by simp : ¬ (false = true))]
          rw [List.nil_append]
          rfl
        rw [hfmt]
        unfold parseDuration
        simp only []
        have hstrip : stripSign (durBody n) = (false, durBody n) := by
          rw [hch, stripSign, if_neg hsign.1, if_neg hsign.2, ← hch]
        rw [hstrip]
        simp only []
        rw [if_neg hne, if_neg hnn]
        rw [show (durBody n).length + 1 = ((durBody n).length - 2) + 3 from by omega]
        rw [durBody_parse n hbound _ _]
        simp only []
        rw [if_neg (by simp : ¬ (false = true))]
        rw [if_neg (by omega : ¬ (n > twoPow63 - 1))]
        rfl
    | negSucc k =>
        have h1' : k + 1 ≤ 9223372036854775808 := by
          have h1 : -(9223372036854775808 : Int) ≤ Int.negSucc k := by
            have hx := hlo
            norm_num at hx
            exact hx
          rw [Int.negSucc_eq] at h1
          have h1x : (k : Int) + 1 ≤ 9223372036854775808 := by omega
          exact_mod_cast h1x
        have hbound : k + 1 ≤ twoPow63 := by omega
        obtain ⟨ch, cr, hch, hchd⟩ := durBody_head_digit (k + 1)
        have hlen := durBody_length (k + 1)
        have hne : durBody (k + 1) ≠ ['0'] := by
          intro hcon
          rw [hcon] at hlen
          simp at hlen
        have hnn : durBody (k + 1) ≠ [] := by
          intro hcon
          rw [hcon] at hlen
          simp at hlen
        have hfmt : formatDuration (Int.negSucc k) = String.mk ('-' :: durBody (k + 1)) := by
          unfold formatDuration
          simp only []
          rw [if_neg (show ¬ ((Int.negSucc k).natAbs = 0) from Nat.succ_ne_zero k)]
          rw [decide_eq_true (Int.negSucc_lt_zero k)]
          rw [if_pos rfl]
          rfl
        rw [hfmt]
        unfold parseDuration
        simp only []
        have hstrip : stripSign ('-' :: durBody (k + 1)) = (true, durBody (k + 1)) := by
          rw [stripSign, if_neg (by decide), if_pos rfl]
        rw [hstrip]
        simp only []
        rw [if_neg hne, if_neg hnn]
        rw [show (durBody (k + 1)).length + 1 = ((durBody (k + 1)).length - 2) + 3 from by
          omega]
        rw [durBody_parse (k + 1) hbound _ _]
        simp only []
        rw [if_pos trivial]
        congr 1

theorem parseBool_format (b : Bool) : parseBool (formatBool b) = .ok b := by
  cases b <;> rfl

theorem decEqb_refl (m e : Int) : decEqb m e m e = true := by
  unfold decEqb
  rw [if_pos (le_refl e)]
  simp

theorem valIsNaN_builtin (p : Bool) (bv : BVal) :
    valIsNaN (.builtin p bv) = bv.isNaN := by
  cases bv with
  | f w x => cases x <;> rfl
  | s x => rfl
  | b x => rfl
  | i w x => rfl
  | u w x => rfl
  | d x => rfl

/-- Go `==` is reflexive on every non-NaN payload. -/
theorem sameValue_refl (bv : BVal) (h : bv.isNaN = false) : bv.sameValue bv = true := by
  cases bv with
  | s x => simp [BVal.sameValue]
  | b x => simp [BVal.sameValue]
  | i w x => simp [BVal.sameValue]
  | u w x => simp [BVal.sameValue]
  | d x => simp [BVal.sameValue]
  | f w x =>
      cases x with
      | fin m e =>
          show fEq (.fin m e) (.fin m e) = true
          exact decEqb_refl m e
      | inf neg => simp [BVal.sameValue, fEq]
      | nan => simp [BVal.isNaN] at h

/-- Parsing depends only on the stored kind: a payload obtained from a
successful parse parses the same text to itself. -/
theorem BVal.parse_kind (bv bv' : BVal) (v : String) (h : bv.parse v = .ok bv') :
    bv'.parse v = .ok bv' := by
  cases bv with
  | s x =>
      rw [BVal.parse] at h
      cases h
      rfl
  | b x =>
      rw [BVal.parse] at h
      rcases hp : parseBool v with e | xb <;> rw [hp] at h <;>
        simp [Except.map, Except.mapError] at h
      subst h
      rw [BVal.parse, hp]
      rfl
  | i w x =>
      rw [BVal.parse] at h
      rcases hp : parseIntGo w.bits v with e | xi <;> rw [hp] at h <;>
        simp [Except.map, Except.mapError] at h
      subst h
      rw [BVal.parse, hp]
      rfl
  | u w x =>
      rw [BVal.parse] at h
      rcases hp : parseUintGo w.bits v with e | xu <;> rw [hp] at h <;>
        simp [Except.map, Except.mapError] at h
      subst h
      rw [BVal.parse, hp]
      rfl
  | f w x =>
      rw [BVal.parse] at h
      rcases hp : parseFloatGo v with e | xf <;> rw [hp] at h <;>
        simp [Except.map, Except.mapError] at h
      subst h
      rw [BVal.parse, hp]
      rfl
  | d x =>
      rw [BVal.parse] at h
      rcases hp : parseDuration v with e | xd <;> rw [hp] at h <;>
        simp [Except.map] at h
      subst h
      rw [BVal.parse, hp]
      rfl

/-- A payload obtained from a successful parse survives the
format-then-parse round trip, structurally. -/
theorem BVal.parse_format_roundtrip (bv bv' : BVal) (v : String)
    (h : bv.parse v = .ok bv') : bv'.parse bv'.format = .ok bv' := by
  cases bv with
  | s x =>
      rw [BVal.parse] at h
      cases h
      rfl
  | b x =>
      rw [BVal.parse] at h
      rcases hp : parseBool v with e | xb <;> rw [hp] at h <;>
        simp [Except.map, Except.mapError] at h
      subst h
      rw [show (BVal.b xb).format = formatBool xb from rfl, BVal.parse, parseBool_format]
      rfl
  | i w x =>
      rw [BVal.parse] at h
      rcases hp : parseIntGo w.bits v with e | xi <;> rw [hp] at h <;>
        simp [Except.map, Except.mapError] at h
      subst h
      have hb := parseIntGo_bounds w.bits v xi hp
      have hw : w.bits ≤ 64 ∧ 1 ≤ w.bits := by cases w <;> exact ⟨by decide, by decide⟩
      rw [show (BVal.i w xi).format = intToString xi from rfl, BVal.parse,
        parseIntGo_roundtrip w.bits hw.1 hw.2 xi hb.1 hb.2]
      rfl
  | u w x =>
      rw [BVal.parse] at h
      rcases hp : parseUintGo w.bits v with e | xu <;> rw [hp] at h <;>
        simp [Except.map, Except.mapError] at h
      subst h
      have hb := parseUintGo_le w.bits v xu hp
      have hw : w.bits ≤ 64 := by cases w <;> decide
      rw [show (BVal.u w xu).format = natToString xu from rfl, BVal.parse,
        parseUintGo_roundtrip w.bits hw xu hb]
      rfl
  | f w x =>
      rw [BVal.parse] at h
      rcases hp : parseFloatGo v with e | xf <;> rw [hp] at h <;>
        simp [Except.map, Except.mapError] at h
      subst h
      rw [show (BVal.f w xf).format = formatFloatGo xf from rfl, BVal.parse,
        parseFloat_format_roundtrip xf]
      rfl
  | d x =>
      rw [BVal.parse] at h
      rcases hp : parseDuration v with e | xd <;> rw [hp] at h <;>
        simp [Except.map] at h
      subst h
      have hb := parseDuration_bounds v xd hp
      rw [show (BVal.d xd).format = formatDuration xd from rfl, BVal.parse,
        parseDuration_roundtrip xd hb.1 hb.2]
      rfl

/-- **C3 (counterexample).** The claim fails as stated: (1) on a masked
string setting, `Set("y")` succeeds but `String()` returns the redaction
marker, which does not `Equals` the stored value; (2) on a float setting,
`Set("NaN")` succeeds — `"NaN"` is a valid encoding — yet `Equals("NaN")`
is false, because Go `==` is false on NaN. -/
theorem C3_counterexample :
    ((settingSet c3Masked "y").2.1 = .ok () ∧
      settingEquals (settingSet c3Masked "y").1
        (settingString (settingSet c3Masked "y").1) = false) ∧
    ((settingSet c3Float "NaN").2.1 = .ok () ∧
      settingEquals (settingSet c3Float "NaN").1 "NaN" = false) :=
  ⟨⟨rfl, rfl⟩, ⟨rfl, rfl⟩⟩

/-- **C3 (amended).** For every unmasked builtin-typed setting and text
`t1`: when `Set(t1)` succeeds and the stored result is not a float NaN,
`Equals(t1)` is true, and `String()` renders a text that also `Equals`. -/
theorem C3_roundtrip (st : SettingSt) (p : Bool) (bv0 : BVal) (t1 : String)
    (hmask : st.Mask = false) (hval : st.Value = .builtin p bv0)
    (hok : (settingSet st t1).2.1 = .ok ())
    (hnan : valIsNaN (settingSet st t1).1.Value = false) :
    settingEquals (settingSet st t1).1 t1 = true ∧
    settingEquals (settingSet st t1).1 (settingString (settingSet st t1).1) = true := by
  rcases hp : bv0.parse t1 with e | bv'
  · exfalso
    have hvp : valParse st.Value t1 = .error (.cast bv0.castName e) := by
      rw [hval]
      simp [valParse, hp]
    simp [settingSet, hvp] at hok
  · have hvp : valParse st.Value t1 = .ok (.builtin p bv') := by
      rw [hval]
      simp [valParse, hp]
    have hst1 : (settingSet st t1).1 = { st with Value := .builtin p bv' } := by
      by_cases hs : valEquals st.Value t1 = true <;>
        simp [settingSet, settingEquals, hvp, hs]
    have hbnan : bv'.isNaN = false := by
      rw [hst1] at hnan
      rwa [show ({ st with Value := .builtin p bv' } : SettingSt).Value =
        .builtin p bv' from rfl, valIsNaN_builtin] at hnan
    have hkind : bv'.parse t1 = .ok bv' := BVal.parse_kind bv0 bv' t1 hp
    have hround : bv'.parse bv'.format = .ok bv' :=
      BVal.parse_format_roundtrip bv0 bv' t1 hp
    have hsame : bv'.sameValue bv' = true := sameValue_refl bv' hbnan
    constructor
    · rw [hst1]
      show valEquals (.builtin p bv') t1 = true
      simp [valEquals, hkind, hsame]
    · rw [hst1]
      simp [settingEquals, settingString, hmask, valFormat, valEquals, hround, hsame]

/-- **C3 (witness).** The amended round trip at a concrete instance: an
int8 setting set to `"-0x10"` (base-0 hexadecimal for −16). -/
theorem C3_witness :
    c3W.Mask = false ∧ c3W.Value = .builtin false (.i .i8 0) ∧
    (settingSet c3W "-0x10").2.1 = .ok () ∧
    valIsNaN (settingSet c3W "-0x10").1.Value = false ∧
    (settingEquals (settingSet c3W "-0x10").1 "-0x10" = true ∧
      settingEquals (settingSet c3W "-0x10").1
        (settingString (settingSet c3W "-0x10").1) = true) :=
  ⟨rfl, rfl, rfl, rfl, C3_roundtrip c3W false (.i .i8 0) "-0x10" rfl rfl rfl rfl⟩

/-- **C8 (code bug).** `Set.Dump` writes the header `Path, Type, Value,
Description` and one four-column row per visited setting — there is no
`Default Value` column, although the repository's own `ExampleBind`
expected output (and the spec) lists five columns including it.  The
value column does honor `Mask` (the masked setting renders as the
redaction marker). -/
theorem C8_dump_columns :
    dumpOp c8Reg none =
      [["Path", "Type", "Value", "Description"],
       ["MyApplication.Password", "*string", "\"*****\"", "Super secret password"]] := by
  rfl

theorem C9_witness :
    (settingSet c9Setting "anything at all").2.1 = .ok () ∧
    (settingSet c9Setting "anything at all").1.Value = .builtin true (.s "anything at all") ∧
    (settingEquals c9Setting "old" = true ↔ ("old" : String) = "old") :=
  ⟨(C9_string_kind c9Setting true "old" "anything at all" rfl).1,
   (C9_string_kind c9Setting true "old" "anything at all" rfl).2.1,
   (C9_string_kind c9Setting true "old" "old" rfl).2.2⟩

end Config
